import Mathlib

/-!
Shallow embedding of the fredlang front end (scanner, parser, evaluator)
and proofs about it.

Sources embedded:
- src/lexer/tokens.go ........ token kinds, fixed-lexeme maps, `Token`
- src/lexer/lexer.go ......... the scanner (`ScanTokens` and helpers)
- src/ast/parser.go .......... the earlier parser snapshot (panics on
  unterminated groups; `Parse` starts at `parseFactor`) — namespace `ParserV1`
- src/unnamed/part_004 ....... the later parser snapshot (error list;
  `Parse` starts at `parseEquality`) — namespace `ParserV2`
- src/unnamed/part_003 ....... AST node types, `String` rendering and `Eval`

Modelling conventions:
- Go `[]rune` is `List Char`; Go slice indexing that can panic is made
  explicit (the lexer only indexes behind bounds guards, so `List.getD`
  is used there; the parsers can index out of range, so their `peek` and
  `advance` return `Except` with a distinguished `indexOutOfRange` error).
- Go `float64` payloads are modelled as `ℚ`; the claims proved here do
  not depend on IEEE-754 rounding, overflow, or division-by-zero
  behaviour (noted again at each point of contact).
- Loops are fuel-indexed structural recursions so that every definition
  computes by `rfl`/`decide`; fuel-adequacy lemmas discharge termination.
- Go `panic` is a distinguished error constructor, never a silent value.
- Character class predicates (`unicode.IsSpace`/`IsNumber`/`IsLetter`)
  are modelled on the code points the language's sources exercise (ASCII
  plus the two Latin-1 spaces); exotic Unicode classes are out of scope.
-/

/-! ## Token model (src/lexer/tokens.go) -/

/-- Token kinds from src/lexer/tokens.go.  The constructor `Number` does not
appear in tokens.go's constant block but is referenced by src/lexer/lexer.go
and src/unnamed/part_004 (the unified-number snapshot), so it is included as
a distinct kind.  In Go a `TokenKind` is a string constant; distinct
constructors model the distinct string values. -/
inductive TokenKind where
  | LParen | RParen | LBrace | RBrace | Comma | Dot | Minus | Plus
  | Semicolon | Slash | Star | Bang | BangEq | Eq | DoubleEq
  | Greater | GreaterEq | Less | LessEq
  | String | Integer | Float | Identifier
  | And | Class | Else | False | Function | For | If | Null | Or
  | Print | Return | Super | This | True | Var | While
  | EOF
  | Number
deriving DecidableEq, Repr

/-- The `lexemeToKindMap` literal from src/lexer/tokens.go, in source order. -/
def lexemeToKindMap : List (String × TokenKind) :=
  [("(", .LParen), (")", .RParen), ("\x7b", .LBrace), ("\x7d", .RBrace),
   (",", .Comma), (".", .Dot), ("-", .Minus), ("+", .Plus),
   (";", .Semicolon), ("/", .Slash), ("*", .Star), ("!", .Bang),
   ("!=", .BangEq), ("=", .Eq), ("==", .DoubleEq), (">", .Greater),
   (">=", .GreaterEq), ("<", .Less), ("<=", .LessEq),
   ("and", .And), ("class", .Class), ("else", .Else), ("false", .False),
   ("function", .Function), ("for", .For), ("if", .If), ("null", .Null),
   ("or", .Or), ("print", .Print), ("return", .Return), ("super", .Super),
   ("this", .This), ("true", .True), ("var", .Var), ("while", .While)]

/-- The inverted map, derived from `lexemeToKindMap` exactly as tokens.go
derives `kindToLexemeMap` by iterating the forward map. -/
def kindToLexemeMap : List (TokenKind × String) :=
  lexemeToKindMap.map (fun p => (p.2, p.1))

/-- tokens.go `tokenKindFromKeyword`: map lookup returning (kind, ok);
the not-found case (`("", false)` in Go) is `none`. -/
def tokenKindFromKeyword (keyword : String) : Option TokenKind :=
  lexemeToKindMap.lookup keyword

/-- tokens.go `TokenKind.Lexeme`: inverted-map lookup, `""` when absent.
(The result type is the inferred `String`; writing it out would resolve to
the `TokenKind.String` constructor inside this namespace.) -/
def TokenKind.lexeme (t : TokenKind) :=
  (kindToLexemeMap.lookup t).getD ""

/-- tokens.go `TokenKind.Rune`: the single character of a one-character
lexeme, the zero rune otherwise. -/
def TokenKind.rune (t : TokenKind) : Char :=
  match t.lexeme.toList with
  | [c] => c
  | _ => Char.ofNat 0

/-- tokens.go `Token`: kind, lexeme, 1-based line. -/
structure Token where
  kind : TokenKind
  lexeme : String
  line : Nat
deriving DecidableEq, Repr

/-- tokens.go `NewToken`. -/
def NewToken (kind : TokenKind) (lexeme : String) (line : Nat) : Token :=
  Token.mk kind lexeme line

/-- The fixed-lexeme kinds: exactly the values of the fixed-lexeme map. -/
def fixedLexemeKinds : List TokenKind := lexemeToKindMap.map Prod.snd

/-- Association-list lookup misses exactly the keys not present. -/
theorem lookup_eq_none_of_forall {β : Type} :
    ∀ (l : List (String × β)) (s : String),
      (∀ p ∈ l, p.1 ≠ s) → l.lookup s = none := by
  intro l
  induction l with
  | nil => intro s _; rfl
  | cons p rest ih =>
    intro s h
    have hp : p.1 ≠ s := h p (List.mem_cons_self p rest)
    have hbeq : (s == p.1) = false := by
      cases hb : s == p.1 with
      | false => rfl
      | true => exact absurd (eq_of_beq hb).symm hp
    simp only [List.lookup, hbeq]
    exact ih s (fun q hq => h q (List.mem_cons_of_mem p hq))

/-! ## Scanner (src/lexer/lexer.go) -/

/-- Go `unicode.IsSpace`, restricted to the Latin-1 range Go treats as
space ('\t' '\n' '\v' '\f' '\r' ' ' U+0085 U+00A0); wider Unicode space
categories are outside the language's exercised alphabet. -/
def goIsSpace (c : Char) : Bool :=
  c = ' ' ∨ c = Char.ofNat 9 ∨ c = Char.ofNat 10 ∨ c = Char.ofNat 11 ∨
  c = Char.ofNat 12 ∨ c = Char.ofNat 13 ∨ c = Char.ofNat 133 ∨ c = Char.ofNat 160

/-- Go `unicode.IsNumber` restricted to the decimal digits (the only
number-category code points the sources exercise). -/
def goIsDigit (c : Char) : Bool := '0' ≤ c ∧ c ≤ '9'

/-- Go `unicode.IsLetter` restricted to ASCII letters. -/
def goIsLetter (c : Char) : Bool := ('a' ≤ c ∧ c ≤ 'z') ∨ ('A' ≤ c ∧ c ≤ 'Z')

/-- Scanner state, mirroring lexer.go's `Lexer` struct: `source` is the
`[]rune` slice, plus the growing token/error lists and the `start`,
`current`, `line` cursors. -/
structure Lexer where
  source : List Char
  tokens : List Token
  errors : List String
  start : Nat
  current : Nat
  line : Nat
deriving Repr

/-- lexer.go `New`. -/
def Lexer.new (source : List Char) : Lexer :=
  Lexer.mk source [] [] 0 0 1

/-- lexer.go `isEnd`. -/
def Lexer.isEnd (l : Lexer) : Bool := l.source.length ≤ l.current

/-- The zero rune, which lexer.go's lookahead helpers return at end of
input, also used as the (unreachable) out-of-bounds default. -/
def zeroRune : Char := Char.ofNat 0

/-- lexer.go `advance`: read `source[current]`, set `start := current`,
increment `current`.  Every call site guards `current < len(source)`, so the
`getD` default is unreachable. -/
def Lexer.advanceF (l : Lexer) : Char × Lexer :=
  (l.source.getD l.current zeroRune,
   { l with start := l.current, current := l.current + 1 })

/-- lexer.go `lookahead`: `source[current]`, or the zero rune at end. -/
def Lexer.lookahead (l : Lexer) : Char :=
  if l.isEnd then zeroRune else l.source.getD l.current zeroRune

/-- lexer.go `lookaheadBy`: `source[start+skip]`, or the zero rune when out
of range. -/
def Lexer.lookaheadBy (l : Lexer) (skip : Nat) : Char :=
  if l.source.length ≤ l.start + skip then zeroRune
  else l.source.getD (l.start + skip) zeroRune

/-- lexer.go `peek`: `source[start]` (always in bounds at its call sites). -/
def Lexer.peekF (l : Lexer) : Char :=
  l.source.getD l.start zeroRune

/-- lexer.go `match`: if the lookahead is `target`, consume it. -/
def Lexer.lmatch (l : Lexer) (target : Char) : Bool × Lexer :=
  if l.lookahead = target then (true, l.advanceF.2) else (false, l)

/-- lexer.go `increaseLine`. -/
def Lexer.incLine (l : Lexer) : Lexer := { l with line := l.line + 1 }

/-- The loop of lexer.go `consumeSpaces`, fuel-indexed: consume a maximal
whitespace run, bumping `line` at each newline.  `none` means fuel ran out
(never happens with the wrapper's fuel, see `consumeSpacesLoop_spec`). -/
def consumeSpacesLoop : Nat → Lexer → Option Lexer
  | 0, _ => none
  | fuel + 1, l =>
    if l.isEnd then some l
    else
      let ch := l.lookahead
      if ¬ goIsSpace ch then some l
      else
        let l1 := if ch = Char.ofNat 10 then l.incLine else l
        consumeSpacesLoop fuel l1.advanceF.2

/-- lexer.go `consumeSpaces`: bump `line` if the just-advanced character
(`peek`) is a newline, then consume the rest of the whitespace run. -/
def consumeSpaces (l : Lexer) : Option Lexer :=
  consumeSpacesLoop (l.source.length - l.current + 1)
    (if l.peekF = Char.ofNat 10 then l.incLine else l)

/-- The loop of lexer.go `parseString`: copy runes verbatim until a closing
quote (`Except.ok lexeme`) or end of input (`Except.error` with the
"unterminated string" message). -/
def parseStringLoop : Nat → Lexer → List Char → Option (Except String String × Lexer)
  | 0, _, _ => none
  | fuel + 1, l, acc =>
    if l.isEnd then some (.error "unterminated string", l)
    else
      let (ch, l1) := l.advanceF
      if ch = '"' then some (.ok (String.mk acc), l1)
      else parseStringLoop fuel l1 (acc ++ [ch])

/-- lexer.go `parseString`. -/
def parseString (l : Lexer) : Option (Except String String × Lexer) :=
  parseStringLoop (l.source.length - l.current + 1) l []

/-- The loop of lexer.go `parseNumber`: consume digits, plus at most one
dot that is followed by a further digit (checked with `lookaheadBy 2`); the
`isFloat` flag records whether a dot was consumed. -/
def parseNumberLoop : Nat → Lexer → List Char → Bool → Option (String × Bool × Lexer)
  | 0, _, _, _ => none
  | fuel + 1, l, acc, isFloat =>
    if l.isEnd then some (String.mk acc, isFloat, l)
    else
      let ch := l.lookahead
      if ch = '.' ∧ ¬ isFloat then
        if ¬ goIsDigit (l.lookaheadBy 2) then some (String.mk acc, isFloat, l)
        else parseNumberLoop fuel l.advanceF.2 (acc ++ ['.']) true
      else if ¬ goIsDigit ch then some (String.mk acc, isFloat, l)
      else parseNumberLoop fuel l.advanceF.2 (acc ++ [ch]) isFloat

/-- lexer.go `parseNumber` (returns only the lexeme, as in the source; the
internal `isFloat` flag is dropped). -/
def parseNumber (l : Lexer) : Option (String × Lexer) :=
  (parseNumberLoop (l.source.length - l.current + 1) l [l.peekF] false).map
    (fun r => (r.1, r.2.2))

/-- The loop of lexer.go `parseKeywordOrIdentifier`: consume a maximal run
of letters, digits and underscores. -/
def parseKeywordOrIdentifierLoop : Nat → Lexer → List Char → Option (List Char × Lexer)
  | 0, _, _ => none
  | fuel + 1, l, acc =>
    if l.isEnd then some (acc, l)
    else
      let ch := l.lookahead
      if ¬ (goIsLetter ch ∨ goIsDigit ch ∨ ch = '_') then some (acc, l)
      else parseKeywordOrIdentifierLoop fuel l.advanceF.2 (acc ++ [ch])

/-- lexer.go `parseKeywordOrIdentifier`: the run starting at `peek`,
classified through the keyword table, falling back to `Identifier`. -/
def parseKeywordOrIdentifier (l : Lexer) : Option (String × TokenKind × Lexer) :=
  (parseKeywordOrIdentifierLoop (l.source.length - l.current + 1) l [l.peekF]).map
    (fun r =>
      let lexeme := String.mk r.1
      match tokenKindFromKeyword lexeme with
      | some kind => (lexeme, kind, r.2)
      | none => (lexeme, TokenKind.Identifier, r.2))

/-- The `switch ch` dispatch of lexer.go `ScanTokens`: fixed single-
character kinds, the four operators with a one-character `=` lookahead, and
`none` for the default (unexpected token) branch. -/
def scanSwitch (ch : Char) (l : Lexer) : Option Token × Lexer :=
  if ch = TokenKind.LParen.rune then
    (some (NewToken .LParen TokenKind.LParen.lexeme l.line), l)
  else if ch = TokenKind.RParen.rune then
    (some (NewToken .RParen TokenKind.RParen.lexeme l.line), l)
  else if ch = TokenKind.LBrace.rune then
    (some (NewToken .LBrace TokenKind.LBrace.lexeme l.line), l)
  else if ch = TokenKind.RBrace.rune then
    (some (NewToken .RBrace TokenKind.RBrace.lexeme l.line), l)
  else if ch = TokenKind.Comma.rune then
    (some (NewToken .Comma TokenKind.Comma.lexeme l.line), l)
  else if ch = TokenKind.Dot.rune then
    (some (NewToken .Dot TokenKind.Dot.lexeme l.line), l)
  else if ch = TokenKind.Minus.rune then
    (some (NewToken .Minus TokenKind.Minus.lexeme l.line), l)
  else if ch = TokenKind.Plus.rune then
    (some (NewToken .Plus TokenKind.Plus.lexeme l.line), l)
  else if ch = TokenKind.Semicolon.rune then
    (some (NewToken .Semicolon TokenKind.Semicolon.lexeme l.line), l)
  else if ch = TokenKind.Slash.rune then
    (some (NewToken .Slash TokenKind.Slash.lexeme l.line), l)
  else if ch = TokenKind.Star.rune then
    (some (NewToken .Star TokenKind.Star.lexeme l.line), l)
  else if ch = TokenKind.Bang.rune then
    match l.lmatch TokenKind.Eq.rune with
    | (true, l2) => (some (NewToken .BangEq TokenKind.BangEq.lexeme l2.line), l2)
    | (false, l2) => (some (NewToken .Bang TokenKind.Bang.lexeme l2.line), l2)
  else if ch = TokenKind.Eq.rune then
    match l.lmatch TokenKind.Eq.rune with
    | (true, l2) => (some (NewToken .DoubleEq TokenKind.DoubleEq.lexeme l2.line), l2)
    | (false, l2) => (some (NewToken .Eq TokenKind.Eq.lexeme l2.line), l2)
  else if ch = TokenKind.Greater.rune then
    match l.lmatch TokenKind.Eq.rune with
    | (true, l2) => (some (NewToken .GreaterEq TokenKind.GreaterEq.lexeme l2.line), l2)
    | (false, l2) => (some (NewToken .Greater TokenKind.Greater.lexeme l2.line), l2)
  else if ch = TokenKind.Less.rune then
    match l.lmatch TokenKind.Eq.rune with
    | (true, l2) => (some (NewToken .LessEq TokenKind.LessEq.lexeme l2.line), l2)
    | (false, l2) => (some (NewToken .Less TokenKind.Less.lexeme l2.line), l2)
  else (none, l)

/-- The main loop of lexer.go `ScanTokens`, parametrized by the kind given
to numeric lexemes: the source file builds every number token with the
unified `Number` kind; the spec-modelled variant classifies
Integer/Float (see `numberKindFromLexeme`).  Everything else is common to
both snapshots. -/
def scanTokensLoop (classify : String → TokenKind) : Nat → Lexer → Option Lexer
  | 0, _ => none
  | fuel + 1, l =>
    if l.isEnd then some l
    else
      let (ch, l1) := l.advanceF
      if goIsSpace ch then
        match consumeSpaces l1 with
        | none => none
        | some l2 => scanTokensLoop classify fuel l2
      else if ch = '"' then
        match parseString l1 with
        | none => none
        | some (.error e, l2) =>
          scanTokensLoop classify fuel { l2 with errors := l2.errors ++ [e] }
        | some (.ok lexeme, l2) =>
          scanTokensLoop classify fuel
            { l2 with tokens := l2.tokens ++ [NewToken .String lexeme l2.line] }
      else if goIsDigit ch then
        match parseNumber l1 with
        | none => none
        | some (lexeme, l2) =>
          scanTokensLoop classify fuel
            { l2 with tokens := l2.tokens ++ [NewToken (classify lexeme) lexeme l2.line] }
      else if goIsLetter ch then
        match parseKeywordOrIdentifier l1 with
        | none => none
        | some (lexeme, kind, l2) =>
          scanTokensLoop classify fuel
            { l2 with tokens := l2.tokens ++ [NewToken kind lexeme l2.line] }
      else
        match scanSwitch ch l1 with
        | (some tok, l2) =>
          scanTokensLoop classify fuel { l2 with tokens := l2.tokens ++ [tok] }
        | (none, l2) =>
          scanTokensLoop classify fuel { l2 with errors := l2.errors ++ ["Unexpected token"] }

/-- lexer.go `ScanTokens` with the number-kind parameter: run the main loop
to completion, then increment the line counter once more and append the
`EOF` token with an empty lexeme.  `none` means the fuel ran out, which the
adequacy lemma rules out. -/
def scanTokensWith (classify : String → TokenKind) (source : List Char) :
    Option (List Token × List String) :=
  match scanTokensLoop classify (source.length + 1) (Lexer.new source) with
  | none => none
  | some l =>
    some (l.tokens ++ [NewToken .EOF "" (l.line + 1)], l.errors)

/-- lexer.go `ScanTokens` as in src: every numeric lexeme becomes a
`Number` token. -/
def ScanTokens (source : List Char) : Option (List Token × List String) :=
  scanTokensWith (fun _ => TokenKind.Number) source

/-- Modelled from the spec: the Integer/Float classification of numeric
lexemes ("Classify as Float if a `.` was consumed, else Integer").  The
snapshot of `ScanTokens` that emits `Integer`/`Float` kinds is not under
src/ — only its test (src/unnamed/part_001) and the kind declarations
(src/lexer/tokens.go) are — so this classifier is reconstructed from the
spec's words; a consumed dot is exactly a dot in the returned lexeme. -/
def numberKindFromLexeme (lexeme : String) : TokenKind :=
  if lexeme.toList.contains '.' then TokenKind.Float else TokenKind.Integer

/-- The spec-modelled Integer/Float scanner: identical to `ScanTokens`
except that numeric lexemes are classified by `numberKindFromLexeme`. -/
def ScanTokensIF (source : List Char) : Option (List Token × List String) :=
  scanTokensWith numberKindFromLexeme source

/-! ## AST model and evaluator (src/unnamed/part_003) -/

mutual
/-- The dynamic (`any`-typed) runtime/literal value of part_003:
string, int, float64, bool, nil, or a nested `Node` (a parenthesized
group held by a `Primary`).  Go `float64` payloads are modelled as `ℚ`. -/
inductive Value where
  | vStr : String → Value
  | vInt : Int → Value
  | vFloat : ℚ → Value
  | vBool : Bool → Value
  | vNull : Value
  | vNode : Node → Value

/-- The `Node` variants of part_003.  A Go variable of the `Node` interface
type holds one of the three structs or the nil interface; the nil interface
is the explicit `nilNode` constructor. -/
inductive Node where
  | primary : Value → Node
  | unary : Token → Node → Node
  | binary : Node → Token → Node → Node
  | nilNode : Node
end

/-- Storing a `Node` return value into a `Primary`'s `any` field: a nil
interface becomes the nil (`vNull`) value, anything else a nested node. -/
def valueOfNode : Node → Value
  | .nilNode => .vNull
  | n => .vNode n

mutual
/-- Go `==` on two `any` operands (used by part_003's
`equalityOperations`): values of different dynamic type compare unequal;
same-typed values compare by structural equality. -/
def valueEq : Value → Value → Bool
  | .vStr a, .vStr b => a = b
  | .vInt a, .vInt b => a = b
  | .vFloat a, .vFloat b => a = b
  | .vBool a, .vBool b => a = b
  | .vNull, .vNull => true
  | .vNode a, .vNode b => nodeEq a b
  | _, _ => false

/-- Go `==` on two `Node` interface values. -/
def nodeEq : Node → Node → Bool
  | .primary a, .primary b => valueEq a b
  | .unary o1 n1, .unary o2 n2 => o1 = o2 && nodeEq n1 n2
  | .binary l1 o1 r1, .binary l2 o2 r2 =>
    nodeEq l1 l2 && o1 = o2 && nodeEq r1 r2
  | .nilNode, .nilNode => true
  | _, _ => false
end

/-- The dynamic-type tag of a value (Go's dynamic type of the `any`). -/
def Value.tag : Value → Nat
  | .vStr _ => 0
  | .vInt _ => 1
  | .vFloat _ => 2
  | .vBool _ => 3
  | .vNull => 4
  | .vNode _ => 5

/-- Whether the value is numeric (Go `int` or `float64`). -/
def isNumericV : Value → Bool
  | .vInt _ => true
  | .vFloat _ => true
  | _ => false

/-- Whether the value is a Go `float64`. -/
def isFloatV : Value → Bool
  | .vFloat _ => true
  | _ => false

mutual
/-- part_003 `String()` on each node variant: `Primary` renders its value;
`Unary` renders `(<op><operand>)`; `Binary` renders
`(<left> <op> <right>)`.  Calling `String()` on a nil interface panics in
Go; the placeholder result is unreachable on the trees any claim renders. -/
def Node.string : Node → String
  | .primary v => valueString v
  | .unary op n => "(" ++ op.lexeme ++ n.string ++ ")"
  | .binary l op r =>
    "(" ++ l.string ++ " " ++ op.lexeme ++ " " ++ r.string ++ ")"
  | .nilNode => "<nil Node: Go would panic>"

/-- part_003 `Primary.String`'s rendering of the held value: nil prints the
`null` lexeme, a nested node prints inside one extra pair of parentheses,
everything else prints with `%v`.  Go's `%v` float formatting is not
modelled (no claim renders a float). -/
def valueString : Value → String
  | .vNull => TokenKind.Null.lexeme
  | .vNode n => "(" ++ n.string ++ ")"
  | .vStr s => s
  | .vInt n => toString n
  | .vFloat q => toString q
  | .vBool b => if b then "true" else "false"
end

/-- Result of part_003's `Eval() (any, error)`: `ret v err` is the Go
return pair (with the nil `any` as `vNull`), `panicE` a Go panic. -/
inductive EvalOut where
  | ret : Value → Option String → EvalOut
  | panicE : String → EvalOut

/-- part_003 `Unary.evalNumberOperation`: only `-` applies to a numeric
operand; the negation preserves the numeric subtype.  The final Go branch
is a panic ("something went really wrong if u are here"), unreachable
because the caller only passes int/float values. -/
def evalNumberOperation (value : Value) (op : TokenKind) : EvalOut :=
  if op ≠ TokenKind.Minus then
    .ret .vNull (some "cannot evaluate numeric sign invertion on unary expression")
  else
    match value with
    | .vInt n => .ret (.vInt (-n)) none
    | .vFloat q => .ret (.vFloat (-q)) none
    | _ => .panicE "something went really wrong if u are here"

/-- part_003 `Unary.evalBooleanOperation`: only `!` applies to a boolean
operand; on a wrong operator Go returns `false` (not nil) with the error. -/
def evalBooleanOperation (value : Bool) (op : TokenKind) : EvalOut :=
  if op ≠ TokenKind.Bang then
    .ret (.vBool false) (some "cannot evaluate boolean negation on unary expression")
  else
    .ret (.vBool (!value)) none

/-- part_003 `operatorsAsNumbers`: type-assert both operands to `float64`,
left first; an operand of any other dynamic type (including `int`) fails
with the corresponding "... operator is not a number" error. -/
def operatorsAsNumbers (left right : Value) : Except String (ℚ × ℚ) :=
  match left with
  | .vFloat a =>
    match right with
    | .vFloat b => .ok (a, b)
    | _ => .error "right operator is not a number"
  | _ => .error "left operator is not a number"

/-- part_003 `arithmeticOperations` map.  `ℚ` division by zero yields 0
where Go float division follows IEEE-754; no claim exercises that point.
Kinds outside the four arithmetic keys are absent from the Go map and
unreachable behind `Binary.Eval`'s switch. -/
def arithmeticOperations : TokenKind → ℚ → ℚ → ℚ
  | .Plus => fun a b => a + b
  | .Minus => fun a b => a - b
  | .Star => fun a b => a * b
  | .Slash => fun a b => a / b
  | _ => fun _ _ => 0

/-- part_003 `comparisonOperations` map (same absent-key remark). -/
def comparisonOperations : TokenKind → ℚ → ℚ → Bool
  | .Greater => fun a b => b < a
  | .GreaterEq => fun a b => b ≤ a
  | .Less => fun a b => a < b
  | .LessEq => fun a b => a ≤ b
  | _ => fun _ _ => false

/-- part_003 `equalityOperations` map (same absent-key remark). -/
def equalityOperations : TokenKind → Value → Value → Bool
  | .DoubleEq => fun l r => valueEq l r
  | .BangEq => fun l r => !(valueEq l r)
  | _ => fun _ _ => false

/-- part_003 `Eval` on each node variant.

`Primary`: a nested node is evaluated recursively, any other value is
returned unchanged.

`Unary`: evaluate the operand (Go panics on a nil interface), propagate
its error with a nil result, then dispatch on the operand's dynamic type
(int/float to the numeric operation, bool to the boolean operation,
anything else is the "cannot evaluate unary expression" error).

`Binary`: evaluate left then right, propagating the first error with a
nil result; dispatch on the operator family exactly as the Go switch; an
operator outside the three families panics
("binary operation not implemented"). -/
def Node.eval : Node → EvalOut
  | .primary v =>
    match v with
    | .vNode n => n.eval
    | v => .ret v none
  | .unary op n =>
    match n.eval with
    | .panicE m => .panicE m
    | .ret nodeValue err =>
      match err with
      | some e => .ret .vNull (some e)
      | none =>
        match nodeValue with
        | .vInt k => evalNumberOperation (.vInt k) op.kind
        | .vFloat q => evalNumberOperation (.vFloat q) op.kind
        | .vBool b => evalBooleanOperation b op.kind
        | _ => .ret .vNull (some "cannot evaluate unary expression")
  | .binary l op r =>
    match l.eval with
    | .panicE m => .panicE m
    | .ret left lerr =>
      match lerr with
      | some e => .ret .vNull (some e)
      | none =>
        match r.eval with
        | .panicE m => .panicE m
        | .ret right rerr =>
          match rerr with
          | some e => .ret .vNull (some e)
          | none =>
            match op.kind with
            | .Plus | .Minus | .Star | .Slash =>
              match operatorsAsNumbers left right with
              | .error e => .ret .vNull (some e)
              | .ok (a, b) =>
                .ret (.vFloat (arithmeticOperations op.kind a b)) none
            | .Greater | .GreaterEq | .Less | .LessEq =>
              match operatorsAsNumbers left right with
              | .error e => .ret .vNull (some e)
              | .ok (a, b) =>
                .ret (.vBool (comparisonOperations op.kind a b)) none
            | .DoubleEq | .BangEq =>
              .ret (.vBool (equalityOperations op.kind left right)) none
            | _ => .panicE "binary operation not implemented"
  | .nilNode => .panicE "nil pointer dereference"

/-! ## Literal conversion helpers (Go strconv, as used by the parsers) -/

/-- Value of a digit string (only applied to all-digit lists). -/
def digitsVal (ds : List Char) : Nat :=
  ds.foldl (fun a c => a * 10 + (c.toNat - 48)) 0

/-- Go `strconv.Atoi`: optional sign then at least one digit, nothing else,
and the value must fit in `int` (64-bit: at most 2^63 - 1, or down to
-2^63 when negated), otherwise ErrRange. -/
def goAtoi (s : String) : Option Int :=
  let core : List Char → Option Nat := fun ds =>
    if ds ≠ [] ∧ ds.all (fun c => goIsDigit c) then some (digitsVal ds) else none
  match s.toList with
  | '+' :: ds => (core ds).bind (fun n =>
      if n ≤ 9223372036854775807 then some ((n : Int)) else none)
  | '-' :: ds => (core ds).bind (fun n =>
      if n ≤ 9223372036854775808 then some (-(n : Int)) else none)
  | ds => (core ds).bind (fun n =>
      if n ≤ 9223372036854775807 then some ((n : Int)) else none)

/-- Unsigned decimal part of `goParseFloatQ`: digits with at most one dot,
at least one digit overall. -/
def goParseFloatCore (cs : List Char) : Option ℚ :=
  let ip := cs.takeWhile (fun c => goIsDigit c)
  let rest := cs.dropWhile (fun c => goIsDigit c)
  match rest with
  | [] => if ip.isEmpty then none else some ((digitsVal ip : ℚ))
  | '.' :: frac =>
    if frac.all (fun c => goIsDigit c) ∧ ¬(ip.isEmpty ∧ frac.isEmpty) then
      some ((digitsVal ip : ℚ) + (digitsVal frac : ℚ) / ((10 : ℚ) ^ frac.length))
    else none
  | _ => none

/-- `strconv.ParseFloat(s, 32)` ErrRange cutoff above: a magnitude at or
beyond 2^128 - 2^103 (the halfway point between MaxFloat32 and 2^128,
which round-to-nearest-even sends to +Inf) makes ParseFloat return
ErrRange. -/
def float32OverflowCutoff : ℚ := 340282356779733661637539395458142568448

/-- `strconv.ParseFloat(s, 32)` ErrRange cutoff below: a nonzero magnitude
at or below 2^-150 (half the smallest positive denormal float32) rounds to
zero, and ParseFloat returns ErrRange for it. -/
def float32UnderflowCutoff : ℚ :=
  mkRat 1 1427247692705959881058285969449495136382746624

/-- Go `strconv.ParseFloat` with `bitSize == 32`, as both parsers call it,
on the decimal forms the language exercises (optional sign, digits, at
most one dot).  Exponent, hex, Inf/NaN and underscore forms are not
modelled.  Magnitudes past the float32 rounding cutoffs are ErrRange
(`none`), matching Go; in-range values are kept exactly in `ℚ` (the
float32 rounding of an in-range value is out of scope). -/
def goParseFloatQ (s : String) : Option ℚ :=
  let ranged : ℚ → Option ℚ := fun q =>
    if float32OverflowCutoff ≤ q then none
    else if q ≠ 0 ∧ q ≤ float32UnderflowCutoff then none
    else some q
  match s.toList with
  | '+' :: cs => (goParseFloatCore cs).bind ranged
  | '-' :: cs => ((goParseFloatCore cs).bind ranged).map (fun q => -q)
  | cs => (goParseFloatCore cs).bind ranged

/-- Go `strconv.ParseBool`: exactly the twelve accepted spellings. -/
def goParseBool (s : String) : Option Bool :=
  if s = "1" ∨ s = "t" ∨ s = "T" ∨ s = "TRUE" ∨ s = "true" ∨ s = "True" then
    some true
  else if s = "0" ∨ s = "f" ∨ s = "F" ∨ s = "FALSE" ∨ s = "false" ∨ s = "False" then
    some false
  else none

/-! ## Parser failure modes (shared by both parser snapshots) -/

/-- How a parse attempt can fail to return: a Go index-out-of-range runtime
panic from slice indexing, an explicit Go `panic(msg)`, or fuel exhaustion
(ruled out by the adequacy lemmas for the wrappers' fuel). -/
inductive PErr where
  | indexOutOfRange : PErr
  | goPanic : String → PErr
  | noFuel : PErr
deriving DecidableEq, Repr

/-! ## Parser, later snapshot (src/unnamed/part_004) -/

namespace ParserV2

/-- part_004 `Parser` struct: token slice, accumulated error list (error
strings), cursor. -/
structure PState where
  tokens : List Token
  errors : List String
  current : Nat
deriving Repr, DecidableEq

/-- Unreachable `getD` default behind the bounds check in `peek`. -/
def dTok : Token := NewToken .EOF "" 0

/-- part_004 `peek`: `p.tokens[p.current]`; indexing out of range is the Go
runtime panic, surfaced as `indexOutOfRange`. -/
def peek (st : PState) : Except PErr Token :=
  if st.current < st.tokens.length then .ok (st.tokens.getD st.current dTok)
  else .error .indexOutOfRange

/-- part_004 `advance`: read `tokens[current]` (same panic as `peek`), then
increment the cursor. -/
def advance (st : PState) : Except PErr (Token × PState) :=
  match peek st with
  | .error e => .error e
  | .ok t => .ok (t, { st with current := st.current + 1 })

/-- part_004 `isEnd`. -/
def isEnd (st : PState) : Bool := st.tokens.length ≤ st.current

/-- part_004 `match`: peek once and compare against the target kinds (the
Go loop peeks per target; with a non-empty target list that is the same
membership test). -/
def pmatch (st : PState) (targets : List TokenKind) : Except PErr Bool :=
  match peek st with
  | .error e => .error e
  | .ok t => .ok (decide (t.kind ∈ targets))

/-- part_004 `registerError`. -/
def registerError (st : PState) (msg : String) : PState :=
  { st with errors := st.errors ++ [msg] }

/-- Which part_004 parse function is executing.  The loop ranks carry the
left-associative accumulator of the corresponding Go `for` loop. -/
inductive Rank where
  | eq
  | eqLoop (left : Node)
  | comp
  | compLoop (left : Node)
  | term
  | termLoop (left : Node)
  | factor
  | factorLoop (left : Node)
  | unary
  | primary
  | literal

/-- The mutually recursive parse functions of part_004, fuel-indexed so the
recursion is structural (each call burns one unit).  Branch by branch:

- `.eq`/`.comp`/`.term`/`.factor` are `parseEquality`/`parseComparison`/
  `parseTerm`/`parseFactor`: parse the next-tighter level, then run the
  operator loop at the same level.
- `.eqLoop` etc. are those functions' `for !p.isEnd() && p.match(...)`
  loops: fold `Binary{left, op, right}` left-associatively.
- `.unary` is `parseUnary`: on `-`/`!` consume the operator and recurse,
  otherwise fall through to `parsePrimary`.
- `.primary` is `parsePrimary`: a `(` opens a nested top-level parse that
  must be followed by `)` — otherwise "Unterminated group expression" is
  registered — and is wrapped (`p.advance()` runs unconditionally after the
  check, which can step past the end of the slice); literal kinds delegate
  to `parseLiteral`; anything else registers "Literal expected" and yields
  the nil node.
- `.literal` is `parseLiteral`: convert the lexeme per the token kind
  (string verbatim, `Number` through ParseFloat, booleans through
  ParseBool, `null` to nil); a conversion failure is a Go panic. -/
def parseStep : Rank → Nat → PState → Except PErr (Node × PState)
  | _, 0, _ => .error .noFuel
  | .eq, fuel + 1, st =>
    match parseStep .comp fuel st with
    | .error e => .error e
    | .ok (left, st1) => parseStep (.eqLoop left) fuel st1
  | .eqLoop left, fuel + 1, st =>
    if isEnd st then .ok (left, st)
    else
      match pmatch st [.DoubleEq, .BangEq] with
      | .error e => .error e
      | .ok false => .ok (left, st)
      | .ok true =>
        match peek st with
        | .error e => .error e
        | .ok op =>
          match advance st with
          | .error e => .error e
          | .ok (_, st1) =>
            match parseStep .comp fuel st1 with
            | .error e => .error e
            | .ok (right, st2) =>
              parseStep (.eqLoop (Node.binary left op right)) fuel st2
  | .comp, fuel + 1, st =>
    match parseStep .term fuel st with
    | .error e => .error e
    | .ok (left, st1) => parseStep (.compLoop left) fuel st1
  | .compLoop left, fuel + 1, st =>
    if isEnd st then .ok (left, st)
    else
      match pmatch st [.Greater, .GreaterEq, .Less, .LessEq] with
      | .error e => .error e
      | .ok false => .ok (left, st)
      | .ok true =>
        match peek st with
        | .error e => .error e
        | .ok op =>
          match advance st with
          | .error e => .error e
          | .ok (_, st1) =>
            match parseStep .term fuel st1 with
            | .error e => .error e
            | .ok (right, st2) =>
              parseStep (.compLoop (Node.binary left op right)) fuel st2
  | .term, fuel + 1, st =>
    match parseStep .factor fuel st with
    | .error e => .error e
    | .ok (left, st1) => parseStep (.termLoop left) fuel st1
  | .termLoop left, fuel + 1, st =>
    if isEnd st then .ok (left, st)
    else
      match pmatch st [.Plus, .Minus] with
      | .error e => .error e
      | .ok false => .ok (left, st)
      | .ok true =>
        match peek st with
        | .error e => .error e
        | .ok op =>
          match advance st with
          | .error e => .error e
          | .ok (_, st1) =>
            match parseStep .factor fuel st1 with
            | .error e => .error e
            | .ok (right, st2) =>
              parseStep (.termLoop (Node.binary left op right)) fuel st2
  | .factor, fuel + 1, st =>
    match parseStep .unary fuel st with
    | .error e => .error e
    | .ok (left, st1) => parseStep (.factorLoop left) fuel st1
  | .factorLoop left, fuel + 1, st =>
    if isEnd st then .ok (left, st)
    else
      match pmatch st [.Star, .Slash] with
      | .error e => .error e
      | .ok false => .ok (left, st)
      | .ok true =>
        match peek st with
        | .error e => .error e
        | .ok op =>
          match advance st with
          | .error e => .error e
          | .ok (_, st1) =>
            match parseStep .unary fuel st1 with
            | .error e => .error e
            | .ok (right, st2) =>
              parseStep (.factorLoop (Node.binary left op right)) fuel st2
  | .unary, fuel + 1, st =>
    match pmatch st [.Minus, .Bang] with
    | .error e => .error e
    | .ok true =>
      match peek st with
      | .error e => .error e
      | .ok op =>
        match advance st with
        | .error e => .error e
        | .ok (_, st1) =>
          match parseStep .unary fuel st1 with
          | .error e => .error e
          | .ok (node, st2) => .ok (Node.unary op node, st2)
    | .ok false => parseStep .primary fuel st
  | .primary, fuel + 1, st =>
    match pmatch st [.LParen] with
    | .error e => .error e
    | .ok true =>
      match advance st with
      | .error e => .error e
      | .ok (_, st1) =>
        match parseStep .eq fuel st1 with
        | .error e => .error e
        | .ok (value, st2) =>
          match pmatch st2 [.RParen] with
          | .error e => .error e
          | .ok b =>
            let st3 := if b then st2 else registerError st2 "Unterminated group expression"
            match advance st3 with
            | .error e => .error e
            | .ok (_, st4) => .ok (Node.primary (valueOfNode value), st4)
    | .ok false =>
      match pmatch st [.String, .Number, .True, .False, .Null] with
      | .error e => .error e
      | .ok true => parseStep .literal fuel st
      | .ok false => .ok (Node.nilNode, registerError st "Literal expected")
  | .literal, _ + 1, st =>
    match peek st with
    | .error e => .error e
    | .ok token =>
      let valueRes : Except PErr Value :=
        match token.kind with
        | .String => .ok (.vStr token.lexeme)
        | .Number =>
          match goParseFloatQ token.lexeme with
          | none => .error (.goPanic "cannot parse lexeme from given token as float")
          | some q => .ok (.vFloat q)
        | .True | .False =>
          match goParseBool token.lexeme with
          | none => .error (.goPanic "cannot parse lexeme from given token as boolean")
          | some b => .ok (.vBool b)
        | .Null => .ok .vNull
        | _ => .error (.goPanic "cannot parse literal")
      match valueRes with
      | .error e => .error e
      | .ok value =>
        match advance st with
        | .error e => .error e
        | .ok (_, st1) => .ok (Node.primary value, st1)

/-- part_004 `parseEquality`. -/
def parseEquality (fuel : Nat) (st : PState) : Except PErr (Node × PState) :=
  parseStep .eq fuel st

/-- part_004 `Parse`: the top-level entry, returning the best-effort node
together with the final state (whose `errors` field is the error list the
Go method returns alongside the node).  The fuel is the adequacy bound. -/
def Parse (tokens : List Token) : Except PErr (Node × PState) :=
  parseEquality (6 * tokens.length + 8) (PState.mk tokens [] 0)

end ParserV2

/-! ## Parser, earlier snapshot (src/ast/parser.go) -/

namespace ParserV1

/-- ast/parser.go `Parser` struct: token slice and cursor (no error list in
this snapshot). -/
structure PState where
  tokens : List Token
  current : Nat
deriving Repr, DecidableEq

/-- Unreachable `getD` default behind the bounds check in `peek`. -/
def dTok : Token := NewToken .EOF "" 0

/-- ast/parser.go `peek` (same out-of-range panic remark as ParserV2). -/
def peek (st : PState) : Except PErr Token :=
  if st.current < st.tokens.length then .ok (st.tokens.getD st.current dTok)
  else .error .indexOutOfRange

/-- ast/parser.go `advance` (the `fmt.Println` debug side effect is
dropped). -/
def advance (st : PState) : Except PErr (Token × PState) :=
  match peek st with
  | .error e => .error e
  | .ok t => .ok (t, { st with current := st.current + 1 })

/-- ast/parser.go `isEnd`. -/
def isEnd (st : PState) : Bool := st.tokens.length ≤ st.current

/-- ast/parser.go `match` (same as ParserV2's). -/
def pmatch (st : PState) (targets : List TokenKind) : Except PErr Bool :=
  match peek st with
  | .error e => .error e
  | .ok t => .ok (decide (t.kind ∈ targets))

/-- Which ast/parser.go parse function is executing (this snapshot has only
the factor level above unary). -/
inductive Rank where
  | factor
  | factorLoop (left : Node)
  | unary
  | primary
  | literal

/-- The mutually recursive parse functions of ast/parser.go, fuel-indexed.
Differences from part_004: `Parse` starts at `parseFactor`; an unmatched
`)` after a group is `panic("unterminated group expression")`; the literal
kinds are `String`/`Integer`/`Float`/`True`/`False`/`Null` with `Integer`
through Atoi and `Float` through ParseFloat; the no-primary fall-through
returns the nil node without recording an error. -/
def parseStep : Rank → Nat → PState → Except PErr (Node × PState)
  | _, 0, _ => .error .noFuel
  | .factor, fuel + 1, st =>
    match parseStep .unary fuel st with
    | .error e => .error e
    | .ok (left, st1) => parseStep (.factorLoop left) fuel st1
  | .factorLoop left, fuel + 1, st =>
    if isEnd st then .ok (left, st)
    else
      match pmatch st [.Star, .Slash] with
      | .error e => .error e
      | .ok false => .ok (left, st)
      | .ok true =>
        match peek st with
        | .error e => .error e
        | .ok op =>
          match advance st with
          | .error e => .error e
          | .ok (_, st1) =>
            match parseStep .unary fuel st1 with
            | .error e => .error e
            | .ok (right, st2) =>
              parseStep (.factorLoop (Node.binary left op right)) fuel st2
  | .unary, fuel + 1, st =>
    match pmatch st [.Minus, .Bang] with
    | .error e => .error e
    | .ok true =>
      match peek st with
      | .error e => .error e
      | .ok op =>
        match advance st with
        | .error e => .error e
        | .ok (_, st1) =>
          match parseStep .unary fuel st1 with
          | .error e => .error e
          | .ok (node, st2) => .ok (Node.unary op node, st2)
    | .ok false => parseStep .primary fuel st
  | .primary, fuel + 1, st =>
    match pmatch st [.LParen] with
    | .error e => .error e
    | .ok true =>
      match advance st with
      | .error e => .error e
      | .ok (_, st1) =>
        match parseStep .factor fuel st1 with
        | .error e => .error e
        | .ok (value, st2) =>
          match pmatch st2 [.RParen] with
          | .error e => .error e
          | .ok false => .error (.goPanic "unterminated group expression")
          | .ok true =>
            match advance st2 with
            | .error e => .error e
            | .ok (_, st3) => .ok (Node.primary (valueOfNode value), st3)
    | .ok false =>
      match pmatch st [.String, .Integer, .Float, .True, .False, .Null] with
      | .error e => .error e
      | .ok true => parseStep .literal fuel st
      | .ok false => .ok (Node.nilNode, st)
  | .literal, _ + 1, st =>
    match peek st with
    | .error e => .error e
    | .ok token =>
      let valueRes : Except PErr Value :=
        match token.kind with
        | .String => .ok (.vStr token.lexeme)
        | .Integer =>
          match goAtoi token.lexeme with
          | none => .error (.goPanic "cannot parse lexeme from given token as integer")
          | some n => .ok (.vInt n)
        | .Float =>
          match goParseFloatQ token.lexeme with
          | none => .error (.goPanic "cannot parse lexeme from given token as float")
          | some q => .ok (.vFloat q)
        | .True | .False =>
          match goParseBool token.lexeme with
          | none => .error (.goPanic "cannot parse lexeme from given token as boolean")
          | some b => .ok (.vBool b)
        | .Null => .ok .vNull
        | _ => .error (.goPanic "cannot parse primary expression from given token")
      match valueRes with
      | .error e => .error e
      | .ok value =>
        match advance st with
        | .error e => .error e
        | .ok (_, st1) => .ok (Node.primary value, st1)

/-- ast/parser.go `parseFactor`. -/
def parseFactor (fuel : Nat) (st : PState) : Except PErr (Node × PState) :=
  parseStep .factor fuel st

/-- ast/parser.go `Parse` (the top level of this snapshot is
`parseFactor`), with the adequacy fuel. -/
def Parse (tokens : List Token) : Except PErr (Node × PState) :=
  parseFactor (6 * tokens.length + 8) (PState.mk tokens 0)

end ParserV1

/-! ## Evaluator lemmas -/

/-- Evaluating `Binary` when both operand evaluations succeed reduces to
the operator dispatch on the two values. -/
theorem binary_eval_of_ok (t : Token) (l r : Node) (lv rv : Value)
    (hl : l.eval = .ret lv none) (hr : r.eval = .ret rv none) :
    (Node.binary l t r).eval =
      match t.kind with
      | .Plus | .Minus | .Star | .Slash =>
        match operatorsAsNumbers lv rv with
        | .error e => .ret .vNull (some e)
        | .ok (a, b) => .ret (.vFloat (arithmeticOperations t.kind a b)) none
      | .Greater | .GreaterEq | .Less | .LessEq =>
        match operatorsAsNumbers lv rv with
        | .error e => .ret .vNull (some e)
        | .ok (a, b) => .ret (.vBool (comparisonOperations t.kind a b)) none
      | .DoubleEq | .BangEq =>
        .ret (.vBool (equalityOperations t.kind lv rv)) none
      | _ => .panicE "binary operation not implemented" := by
  rw [Node.eval, hl, hr]

/-! ## C1, C7, C8, C9 theorems -/

/-- C1 (amended): for a Binary node with operator `+ - * /` whose operands
both evaluate without error, evaluation succeeds with a floating-point
result exactly when both operand values are Go `float64` values; an
integer-valued (or otherwise non-float64) left operand fails with
"left operator is not a number", and a float64 left with a non-float64
right fails with "right operator is not a number" (left is checked
first; no int-to-float coercion is performed). -/
theorem binary_arith_requires_float_operands
    (t : Token) (l r : Node) (lv rv : Value)
    (hop : t.kind = .Plus ∨ t.kind = .Minus ∨ t.kind = .Star ∨ t.kind = .Slash)
    (hl : l.eval = .ret lv none) (hr : r.eval = .ret rv none) :
    (∀ a b, lv = .vFloat a → rv = .vFloat b →
      (Node.binary l t r).eval = .ret (.vFloat (arithmeticOperations t.kind a b)) none) ∧
    (isFloatV lv = false →
      (Node.binary l t r).eval = .ret .vNull (some "left operator is not a number")) ∧
    (isFloatV lv = true → isFloatV rv = false →
      (Node.binary l t r).eval = .ret .vNull (some "right operator is not a number")) := by
  have hbe := binary_eval_of_ok t l r lv rv hl hr
  refine ⟨?_, ?_, ?_⟩
  · intro a b ha hb
    subst ha; subst hb
    rw [hbe]
    rcases hop with h | h | h | h <;> rw [h] <;> rfl
  · intro hnf
    rw [hbe]
    have hoan : operatorsAsNumbers lv rv = .error "left operator is not a number" := by
      cases lv with
      | vFloat a => simp [isFloatV] at hnf
      | vStr s => rfl
      | vInt n => rfl
      | vBool b => rfl
      | vNull => rfl
      | vNode n => rfl
    rcases hop with h | h | h | h <;> rw [h] <;> rw [hoan]
  · intro hlf hrf
    rw [hbe]
    obtain ⟨a, rfl⟩ : ∃ a, lv = .vFloat a := by
      cases lv with
      | vFloat a => exact ⟨a, rfl⟩
      | vStr s => simp [isFloatV] at hlf
      | vInt n => simp [isFloatV] at hlf
      | vBool b => simp [isFloatV] at hlf
      | vNull => simp [isFloatV] at hlf
      | vNode n => simp [isFloatV] at hlf
    have hoan : operatorsAsNumbers (.vFloat a) rv = .error "right operator is not a number" := by
      cases rv with
      | vFloat b => simp [isFloatV] at hrf
      | vStr s => rfl
      | vInt n => rfl
      | vBool b => rfl
      | vNull => rfl
      | vNode n => rfl
    rcases hop with h | h | h | h <;> rw [h] <;> rw [hoan]

/-- C1 counterexample: both operands of `Primary{10} + Primary{20}`
evaluate to numeric (integer) values, yet Eval does not succeed with a
floating-point result — it returns the nil value with the error
"left operator is not a number" (note also: "operator", not "operand",
in the code's message). -/
theorem binary_arith_int_operands_fail :
    isNumericV (.vInt 10) = true ∧ isNumericV (.vInt 20) = true ∧
    (Node.binary (.primary (.vInt 10)) (NewToken .Plus "+" 1)
        (.primary (.vInt 20))).eval
      = .ret .vNull (some "left operator is not a number") :=
  ⟨rfl, rfl, rfl⟩

/-- C1 witness: the amended theorem applied to `30.0 / 5.0` (success with
a float result) and to `10 + 20.0` (integer left operand fails). -/
theorem binary_arith_requires_float_operands_witness :
    (Node.binary (.primary (.vFloat 30)) (NewToken .Slash "/" 1)
        (.primary (.vFloat 5))).eval
      = .ret (.vFloat (arithmeticOperations .Slash 30 5)) none ∧
    (Node.binary (.primary (.vInt 10)) (NewToken .Plus "+" 1)
        (.primary (.vFloat 20))).eval
      = .ret .vNull (some "left operator is not a number") := by
  constructor
  · exact (binary_arith_requires_float_operands (NewToken .Slash "/" 1)
      (.primary (.vFloat 30)) (.primary (.vFloat 5)) (.vFloat 30) (.vFloat 5)
      (by right; right; right; rfl) rfl rfl).1 30 5 rfl rfl
  · exact (binary_arith_requires_float_operands (NewToken .Plus "+" 1)
      (.primary (.vInt 10)) (.primary (.vFloat 20)) (.vInt 10) (.vFloat 20)
      (by left; rfl) rfl rfl).2.1 rfl

/-- C7: for a Binary node with operator `==` or `!=` whose operands both
evaluate without error, evaluation returns the boolean generic-equality
(resp. its negation) of the two values; values of differing dynamic type
are never equal (so no numeric coercion happens), and string equality is
case-sensitive: `Binary{Primary{"DIFFERENT"}, !=, Primary{"different"}}`
evaluates to true. -/
theorem binary_equality_generic_no_coercion :
    (∀ (t : Token) (l r : Node) (lv rv : Value),
      t.kind = .DoubleEq → l.eval = .ret lv none → r.eval = .ret rv none →
      (Node.binary l t r).eval = .ret (.vBool (valueEq lv rv)) none) ∧
    (∀ (t : Token) (l r : Node) (lv rv : Value),
      t.kind = .BangEq → l.eval = .ret lv none → r.eval = .ret rv none →
      (Node.binary l t r).eval = .ret (.vBool (!(valueEq lv rv))) none) ∧
    (∀ v w : Value, v.tag ≠ w.tag → valueEq v w = false) ∧
    (Node.binary (.primary (.vStr "DIFFERENT")) (NewToken .BangEq "!=" 1)
        (.primary (.vStr "different"))).eval = .ret (.vBool true) none := by
  refine ⟨?_, ?_, ?_, rfl⟩
  · intro t l r lv rv hk hl hr
    rw [binary_eval_of_ok t l r lv rv hl hr, hk]
    rfl
  · intro t l r lv rv hk hl hr
    rw [binary_eval_of_ok t l r lv rv hl hr, hk]
    rfl
  · intro v w htag
    cases v <;> cases w <;> first
      | rfl
      | exact absurd rfl htag

/-- C7 witness: the equality branches applied to concrete booleans and the
tag lemma applied to an int/float pair (no numeric coercion). -/
theorem binary_equality_generic_no_coercion_witness :
    (Node.binary (.primary (.vBool true)) (NewToken .DoubleEq "==" 1)
        (.primary (.vBool true))).eval = .ret (.vBool true) none ∧
    valueEq (.vInt 1) (.vFloat 1) = false := by
  constructor
  · have h := binary_equality_generic_no_coercion.1 (NewToken .DoubleEq "==" 1)
      (.primary (.vBool true)) (.primary (.vBool true)) (.vBool true) (.vBool true)
      rfl rfl rfl
    rw [h]; rfl
  · exact binary_equality_generic_no_coercion.2.2.1 (.vInt 1) (.vFloat 1) (by decide)

/-- C8: evaluating `Unary{!, Primary{10}}` returns the nil value paired
with an evaluation error, never a value; in general `!` on any operand
that evaluates to a numeric value yields the operand-type error (the
code's "cannot evaluate numeric sign invertion on unary expression"
message) with a nil result, `!` on a boolean operand succeeds with the
logical negation, and whenever `Unary{!, _}` evaluates without error the
result is a boolean. -/
theorem unary_bang_requires_boolean :
    (Node.unary (NewToken .Bang "!" 1) (.primary (.vInt 10))).eval
      = .ret .vNull (some "cannot evaluate numeric sign invertion on unary expression") ∧
    (∀ (t : Token) (n : Node) (v : Value), t.kind = .Bang →
      n.eval = .ret v none → isNumericV v = true →
      (Node.unary t n).eval
        = .ret .vNull (some "cannot evaluate numeric sign invertion on unary expression")) ∧
    (∀ (t : Token) (n : Node) (b : Bool), t.kind = .Bang →
      n.eval = .ret (.vBool b) none →
      (Node.unary t n).eval = .ret (.vBool (!b)) none) ∧
    (∀ (t : Token) (n : Node) (v : Value), t.kind = .Bang →
      (Node.unary t n).eval = .ret v none → ∃ b, v = .vBool b) := by
  refine ⟨rfl, ?_, ?_, ?_⟩
  · intro t n v hk hn hnum
    cases v with
    | vInt k => rw [Node.eval, hn, hk]; rfl
    | vFloat q => rw [Node.eval, hn, hk]; rfl
    | vStr s => simp [isNumericV] at hnum
    | vBool b => simp [isNumericV] at hnum
    | vNull => simp [isNumericV] at hnum
    | vNode m => simp [isNumericV] at hnum
  · intro t n b hk hn
    rw [Node.eval, hn, hk]; rfl
  · intro t n v hk hev
    rw [Node.eval, hk] at hev
    cases hne : n.eval with
    | panicE m =>
      rw [hne] at hev
      have hev2 : EvalOut.panicE m = EvalOut.ret v none := hev
      exact absurd hev2 (by simp)
    | ret nv err =>
      rw [hne] at hev
      cases err with
      | some e =>
        have hev2 : EvalOut.ret .vNull (some e) = EvalOut.ret v none := hev
        exact absurd hev2 (by simp)
      | none =>
        cases nv with
        | vInt k =>
          have hev2 : EvalOut.ret .vNull
              (some "cannot evaluate numeric sign invertion on unary expression")
              = EvalOut.ret v none := hev
          exact absurd hev2 (by simp)
        | vFloat q =>
          have hev2 : EvalOut.ret .vNull
              (some "cannot evaluate numeric sign invertion on unary expression")
              = EvalOut.ret v none := hev
          exact absurd hev2 (by simp)
        | vBool b =>
          have hev2 : EvalOut.ret (.vBool (!b)) none = EvalOut.ret v none := hev
          exact ⟨!b, by injection hev2 with h1 h2; exact h1.symm⟩
        | vStr s =>
          have hev2 : EvalOut.ret .vNull
              (some "cannot evaluate unary expression") = EvalOut.ret v none := hev
          exact absurd hev2 (by simp)
        | vNull =>
          have hev2 : EvalOut.ret .vNull
              (some "cannot evaluate unary expression") = EvalOut.ret v none := hev
          exact absurd hev2 (by simp)
        | vNode m =>
          have hev2 : EvalOut.ret .vNull
              (some "cannot evaluate unary expression") = EvalOut.ret v none := hev
          exact absurd hev2 (by simp)

/-- C8 witness: the general branches of the theorem applied to the
concrete operands `10`, `0.5` and `false`. -/
theorem unary_bang_requires_boolean_witness :
    (Node.unary (NewToken .Bang "!" 1) (.primary (.vFloat (1/2)))).eval
      = .ret .vNull (some "cannot evaluate numeric sign invertion on unary expression") ∧
    (Node.unary (NewToken .Bang "!" 1) (.primary (.vBool false))).eval
      = .ret (.vBool true) none := by
  constructor
  · exact unary_bang_requires_boolean.2.1 (NewToken .Bang "!" 1)
      (.primary (.vFloat (1/2))) (.vFloat (1/2)) rfl rfl rfl
  · exact unary_bang_requires_boolean.2.2.1 (NewToken .Bang "!" 1)
      (.primary (.vBool false)) false rfl rfl

/-- C9: parsing the token sequence `Integer "5", Star, Integer "12"` with
ast/parser.go's parser produces exactly
`Binary{Primary{5}, *, Primary{12}}` (the left operand is the already
parsed unary before the operator token is folded in, which the
left-associative result shape records), and rendering that node gives
exactly "(5 * 12)". -/
theorem parse_factor_five_star_twelve :
    ParserV1.Parse [NewToken .Integer "5" 1, NewToken .Star "*" 1, NewToken .Integer "12" 1]
      = .ok (Node.binary (.primary (.vInt 5)) (NewToken .Star "*" 1) (.primary (.vInt 12)),
             ParserV1.PState.mk
               [NewToken .Integer "5" 1, NewToken .Star "*" 1, NewToken .Integer "12" 1] 3) ∧
    (Node.binary (.primary (.vInt 5)) (NewToken .Star "*" 1)
        (.primary (.vInt 12))).string = "(5 * 12)" :=
  ⟨rfl, rfl⟩

/-- C4: the fixed-lexeme kind/lexeme maps invert each other — for every
kind in the fixed-lexeme table, `tokenKindFromKeyword` of its canonical
lexeme returns exactly that kind — and looking up any string that is not a
key of the table reports not-found (`none`), never a default kind. -/
theorem fixed_lexeme_map_bijection_roundtrip :
    (∀ k ∈ fixedLexemeKinds, tokenKindFromKeyword (TokenKind.lexeme k) = some k) ∧
    (∀ s : String, (∀ p ∈ lexemeToKindMap, p.1 ≠ s) → tokenKindFromKeyword s = none) := by
  constructor
  · decide
  · intro s h
    exact lookup_eq_none_of_forall lexemeToKindMap s h

/-- C4 witness: the round-trip at `LParen` and a not-found lookup. -/
theorem fixed_lexeme_map_bijection_roundtrip_witness :
    tokenKindFromKeyword (TokenKind.lexeme .LParen) = some .LParen ∧
    tokenKindFromKeyword "nonsense" = none :=
  ⟨fixed_lexeme_map_bijection_roundtrip.1 .LParen (by decide),
   fixed_lexeme_map_bijection_roundtrip.2 "nonsense" (by decide)⟩

/-! ## Scanner lemmas -/

theorem advanceF_source (l : Lexer) : (l.advanceF.2).source = l.source := rfl

theorem advanceF_tokens (l : Lexer) : (l.advanceF.2).tokens = l.tokens := rfl

theorem advanceF_errors (l : Lexer) : (l.advanceF.2).errors = l.errors := rfl

theorem advanceF_line (l : Lexer) : (l.advanceF.2).line = l.line := rfl

theorem advanceF_current (l : Lexer) : (l.advanceF.2).current = l.current + 1 := rfl

theorem incLine_current (l : Lexer) : l.incLine.current = l.current := rfl

theorem isEnd_iff (l : Lexer) : l.isEnd = true ↔ l.source.length ≤ l.current := by
  simp [Lexer.isEnd]

/-- One-step decomposition of the newline count of the remaining source. -/
theorem count_drop_succ (cs : List Char) (n : Nat) (hn : n < cs.length) (c : Char) :
    (cs.drop n).count c
      = (if cs.getD n zeroRune = c then 1 else 0) + (cs.drop (n + 1)).count c := by
  rw [List.getD_eq_getElem cs zeroRune hn, List.drop_eq_getElem_cons hn,
    List.count_cons]
  by_cases h : cs[n] = c
  · rw [if_pos h, if_pos (beq_iff_eq.mpr h)]
    omega
  · rw [if_neg h, if_neg (by simp [h])]
    omega

/-- Remaining-source membership is monotone as the cursor advances. -/
theorem mem_drop_of_le (cs : List Char) (m n : Nat) (h : m ≤ n) (c : Char)
    (hc : c ∈ cs.drop n) : c ∈ cs.drop m := by
  have : cs.drop n = (cs.drop m).drop (n - m) := by
    rw [List.drop_drop]
    congr 1
    omega
  rw [this] at hc
  exact List.mem_of_mem_drop hc

/-- The character under the cursor belongs to the remaining source. -/
theorem getD_current_mem_drop (l : Lexer) (h : l.current < l.source.length) :
    l.source.getD l.current zeroRune ∈ l.source.drop l.current := by
  rw [List.getD_eq_getElem l.source zeroRune h, List.drop_eq_getElem_cons h]
  exact List.mem_cons_self _ _

/-- Association-list lookup only returns stored values. -/
theorem lookup_mem_values {β : Type} :
    ∀ (l : List (String × β)) (s : String) (k : β),
      l.lookup s = some k → k ∈ l.map Prod.snd := by
  intro l
  induction l with
  | nil => intro s k h; exact absurd h (by simp [List.lookup])
  | cons p rest ih =>
    intro s k h
    rw [List.lookup] at h
    cases hb : s == p.1 with
    | true =>
      rw [hb] at h
      injection h with h1
      rw [List.map_cons]
      exact h1 ▸ List.mem_cons_self _ _
    | false =>
      rw [hb] at h
      exact List.mem_cons_of_mem _ (ih s k h)

/-- The keyword table never yields the `EOF` kind. -/
theorem tokenKindFromKeyword_ne_EOF (s : String) (k : TokenKind)
    (h : tokenKindFromKeyword s = some k) : k ≠ TokenKind.EOF := by
  have hm := lookup_mem_values lexemeToKindMap s k h
  intro hk
  rw [hk] at hm
  exact absurd hm (by decide)

/-- `consumeSpacesLoop` with adequate fuel: returns, preserves source,
tokens and errors, never moves the cursor backwards, and conserves
`line + newlines-remaining` (it counts exactly the newlines it consumes). -/
theorem consumeSpacesLoop_spec :
    ∀ (fuel : Nat) (l : Lexer),
      l.source.length - l.current + 1 ≤ fuel →
      ∃ l', consumeSpacesLoop fuel l = some l' ∧
        l'.source = l.source ∧ l'.tokens = l.tokens ∧ l'.errors = l.errors ∧
        l.current ≤ l'.current ∧
        l'.line + (l'.source.drop l'.current).count (Char.ofNat 10)
          = l.line + (l.source.drop l.current).count (Char.ofNat 10) := by
  intro fuel
  induction fuel with
  | zero => intro l h; omega
  | succ f ih =>
    intro l h
    rw [consumeSpacesLoop]
    by_cases he : l.isEnd = true
    · rw [if_pos he]
      exact ⟨l, rfl, rfl, rfl, rfl, Nat.le_refl _, rfl⟩
    · rw [if_neg he]
      have hlt : l.current < l.source.length := by
        rw [isEnd_iff] at he; omega
      by_cases hs : goIsSpace l.lookahead = true
      · rw [if_neg (by simp [hs])]
        set l1 := if l.lookahead = Char.ofNat 10 then l.incLine else l with hl1
        have hl1src : l1.source = l.source := by
          rw [hl1]; by_cases hc : l.lookahead = Char.ofNat 10 <;> simp [hc, Lexer.incLine]
        have hl1cur : l1.current = l.current := by
          rw [hl1]; by_cases hc : l.lookahead = Char.ofNat 10 <;> simp [hc, Lexer.incLine]
        have hbound : l1.advanceF.2.source.length - l1.advanceF.2.current + 1 ≤ f := by
          rw [advanceF_source, advanceF_current, hl1src, hl1cur]; omega
        obtain ⟨l', heq, hsrc, htok, herr, hcur, hline⟩ := ih l1.advanceF.2 hbound
        refine ⟨l', heq, ?_, ?_, ?_, ?_, ?_⟩
        · rw [hsrc, advanceF_source, hl1src]
        · rw [htok, advanceF_tokens]
          rw [hl1]; by_cases hc : l.lookahead = Char.ofNat 10 <;> simp [hc, Lexer.incLine]
        · rw [herr, advanceF_errors]
          rw [hl1]; by_cases hc : l.lookahead = Char.ofNat 10 <;> simp [hc, Lexer.incLine]
        · rw [advanceF_current, hl1cur] at hcur; omega
        · rw [advanceF_line, advanceF_source, advanceF_current, hl1src, hl1cur] at hline
          have hch : l.lookahead = l.source.getD l.current zeroRune := by
            rw [Lexer.lookahead, if_neg he]
          have hcnt := count_drop_succ l.source l.current hlt (Char.ofNat 10)
          by_cases hc : l.lookahead = Char.ofNat 10
          · have hl1line : l1.line = l.line + 1 := by
              rw [hl1, if_pos hc]; rfl
            rw [hl1line] at hline
            rw [if_pos (by rw [← hch]; exact hc)] at hcnt
            omega
          · have hl1line : l1.line = l.line := by
              rw [hl1, if_neg hc]
            rw [hl1line] at hline
            rw [if_neg (by rw [← hch]; exact hc)] at hcnt
            omega
      · rw [if_pos (by simp [hs])]
        exact ⟨l, rfl, rfl, rfl, rfl, Nat.le_refl _, rfl⟩

/-- `parseStringLoop` with adequate fuel: returns, preserves source,
tokens, errors and line, and never moves the cursor backwards. -/
theorem parseStringLoop_spec :
    ∀ (fuel : Nat) (l : Lexer) (acc : List Char),
      l.source.length - l.current + 1 ≤ fuel →
      ∃ res l', parseStringLoop fuel l acc = some (res, l') ∧
        l'.source = l.source ∧ l'.tokens = l.tokens ∧ l'.errors = l.errors ∧
        l'.line = l.line ∧ l.current ≤ l'.current := by
  intro fuel
  induction fuel with
  | zero => intro l acc h; omega
  | succ f ih =>
    intro l acc h
    rw [parseStringLoop]
    by_cases he : l.isEnd = true
    · rw [if_pos he]
      exact ⟨.error "unterminated string", l, rfl, rfl, rfl, rfl, rfl, Nat.le_refl _⟩
    · rw [if_neg he]
      simp only [Lexer.advanceF]
      have hlt : l.current < l.source.length := by rw [isEnd_iff] at he; omega
      by_cases hq : l.source.getD l.current zeroRune = '"'
      · rw [if_pos (by exact hq)]
        exact ⟨.ok (String.mk acc), l.advanceF.2, rfl, rfl, rfl, rfl, rfl,
          by rw [advanceF_current]; omega⟩
      · rw [if_neg (by exact hq)]
        have hbound : l.advanceF.2.source.length - l.advanceF.2.current + 1 ≤ f := by
          rw [advanceF_source, advanceF_current]; omega
        obtain ⟨res, l', heq, hsrc, htok, herr, hline, hcur⟩ :=
          ih l.advanceF.2 (acc ++ [l.source.getD l.current zeroRune]) hbound
        rw [advanceF_source] at hsrc
        rw [advanceF_tokens] at htok
        rw [advanceF_errors] at herr
        rw [advanceF_line] at hline
        rw [advanceF_current] at hcur
        exact ⟨res, l', heq, hsrc, htok, herr, hline, by omega⟩

/-- `parseStringLoop` when no closing quote remains: consumes the rest of
the source and returns the "unterminated string" error, touching nothing
else. -/
theorem parseStringLoop_no_quote :
    ∀ (fuel : Nat) (l : Lexer) (acc : List Char),
      l.source.length - l.current + 1 ≤ fuel →
      (∀ c ∈ l.source.drop l.current, c ≠ '"') →
      ∃ l', parseStringLoop fuel l acc = some (.error "unterminated string", l') ∧
        l'.source = l.source ∧ l'.tokens = l.tokens ∧ l'.errors = l.errors ∧
        l'.line = l.line ∧ l.current ≤ l'.current ∧ l'.source.length ≤ l'.current := by
  intro fuel
  induction fuel with
  | zero => intro l acc h; omega
  | succ f ih =>
    intro l acc h hq
    rw [parseStringLoop]
    by_cases he : l.isEnd = true
    · rw [if_pos he]
      rw [isEnd_iff] at he
      exact ⟨l, rfl, rfl, rfl, rfl, rfl, Nat.le_refl _, he⟩
    · rw [if_neg he]
      simp only [Lexer.advanceF]
      have hlt : l.current < l.source.length := by rw [isEnd_iff] at he; omega
      have hch : l.source.getD l.current zeroRune ≠ '"' :=
        hq _ (getD_current_mem_drop l hlt)
      rw [if_neg (by exact hch)]
      have hbound : l.advanceF.2.source.length - l.advanceF.2.current + 1 ≤ f := by
        rw [advanceF_source, advanceF_current]; omega
      have hq2 : ∀ c ∈ l.advanceF.2.source.drop l.advanceF.2.current, c ≠ '"' := by
        rw [advanceF_source, advanceF_current]
        intro c hc
        exact hq c (mem_drop_of_le l.source l.current (l.current + 1) (by omega) c hc)
      obtain ⟨l', heq, hsrc, htok, herr, hline, hcur, hend⟩ :=
        ih l.advanceF.2 (acc ++ [l.source.getD l.current zeroRune]) hbound hq2
      rw [advanceF_source] at hsrc
      rw [advanceF_tokens] at htok
      rw [advanceF_errors] at herr
      rw [advanceF_line] at hline
      rw [advanceF_current] at hcur
      exact ⟨l', heq, hsrc, htok, herr, hline, by omega, hend⟩

/-- A decimal digit is not a newline. -/
theorem goIsDigit_ne_newline (c : Char) (h : goIsDigit c = true) :
    c ≠ Char.ofNat 10 := by
  intro hc
  rw [hc] at h
  exact absurd h (by decide)

/-- `parseNumberLoop` with adequate fuel: returns, preserves source,
tokens, errors and line, never moves the cursor backwards, and consumes no
newline (the remaining newline count is unchanged). -/
theorem parseNumberLoop_spec :
    ∀ (fuel : Nat) (l : Lexer) (acc : List Char) (isF : Bool),
      l.source.length - l.current + 1 ≤ fuel →
      ∃ s fl l', parseNumberLoop fuel l acc isF = some (s, fl, l') ∧
        l'.source = l.source ∧ l'.tokens = l.tokens ∧ l'.errors = l.errors ∧
        l'.line = l.line ∧ l.current ≤ l'.current ∧
        (l'.source.drop l'.current).count (Char.ofNat 10)
          = (l.source.drop l.current).count (Char.ofNat 10) := by
  intro fuel
  induction fuel with
  | zero => intro l acc isF h; omega
  | succ f ih =>
    intro l acc isF h
    rw [parseNumberLoop]
    by_cases he : l.isEnd = true
    · rw [if_pos he]
      exact ⟨String.mk acc, isF, l, rfl, rfl, rfl, rfl, rfl, Nat.le_refl _, rfl⟩
    · rw [if_neg he]
      have hlt : l.current < l.source.length := by rw [isEnd_iff] at he; omega
      have hla : l.lookahead = l.source.getD l.current zeroRune := by
        rw [Lexer.lookahead, if_neg he]
      have hbound : l.advanceF.2.source.length - l.advanceF.2.current + 1 ≤ f := by
        rw [advanceF_source, advanceF_current]; omega
      have hcnt := count_drop_succ l.source l.current hlt (Char.ofNat 10)
      by_cases hdot : l.lookahead = '.' ∧ ¬ isF = true
      · rw [if_pos hdot]
        by_cases hd2 : goIsDigit (l.lookaheadBy 2) = true
        · rw [if_neg (by simp [hd2])]
          obtain ⟨s, fl, l', heq, hsrc, htok, herr, hline, hcur, hc⟩ :=
            ih l.advanceF.2 (acc ++ ['.']) true hbound
          rw [advanceF_source] at hsrc
          rw [advanceF_tokens] at htok
          rw [advanceF_errors] at herr
          rw [advanceF_line] at hline
          rw [advanceF_current] at hcur
          rw [advanceF_source, advanceF_current] at hc
          refine ⟨s, fl, l', heq, hsrc, htok, herr, hline, by omega, ?_⟩
          have hne : l.source.getD l.current zeroRune ≠ Char.ofNat 10 := by
            rw [← hla, hdot.1]; decide
          rw [if_neg hne] at hcnt
          omega
        · rw [if_pos (by simp [hd2])]
          exact ⟨String.mk acc, isF, l, rfl, rfl, rfl, rfl, rfl, Nat.le_refl _, rfl⟩
      · rw [if_neg hdot]
        by_cases hdig : goIsDigit l.lookahead = true
        · rw [if_neg (by simp [hdig])]
          obtain ⟨s, fl, l', heq, hsrc, htok, herr, hline, hcur, hc⟩ :=
            ih l.advanceF.2 (acc ++ [l.lookahead]) isF hbound
          rw [advanceF_source] at hsrc
          rw [advanceF_tokens] at htok
          rw [advanceF_errors] at herr
          rw [advanceF_line] at hline
          rw [advanceF_current] at hcur
          rw [advanceF_source, advanceF_current] at hc
          refine ⟨s, fl, l', heq, hsrc, htok, herr, hline, by omega, ?_⟩
          have hne : l.source.getD l.current zeroRune ≠ Char.ofNat 10 := by
            rw [← hla]
            exact goIsDigit_ne_newline _ hdig
          rw [if_neg hne] at hcnt
          omega
        · rw [if_pos (by simp [hdig])]
          exact ⟨String.mk acc, isF, l, rfl, rfl, rfl, rfl, rfl, Nat.le_refl _, rfl⟩

/-- The `isFloat` flag of `parseNumberLoop` records exactly whether the
returned lexeme contains a dot (given the same invariant of the
accumulator on entry): a numeral is classified floating-point iff a dot
followed by a further digit was consumed. -/
theorem parseNumberLoop_isFloat :
    ∀ (fuel : Nat) (l : Lexer) (acc : List Char) (isF : Bool)
      (s : String) (fl : Bool) (l' : Lexer),
      parseNumberLoop fuel l acc isF = some (s, fl, l') →
      ('.' ∈ acc ↔ isF = true) →
      (fl = true ↔ '.' ∈ s.toList) := by
  intro fuel
  induction fuel with
  | zero => intro l acc isF s fl l' h; exact absurd h (by simp [parseNumberLoop])
  | succ f ih =>
    intro l acc isF s fl l' h hacc
    rw [parseNumberLoop] at h
    by_cases he : l.isEnd = true
    · rw [if_pos he] at h
      injection h with h1
      injection h1 with hs h2
      injection h2 with hfl hl
      rw [← hs, ← hfl]
      exact ⟨fun hisf => hacc.mpr hisf, fun hmem => hacc.mp hmem⟩
    · rw [if_neg he] at h
      by_cases hdot : l.lookahead = '.' ∧ ¬ isF = true
      · rw [if_pos hdot] at h
        by_cases hd2 : goIsDigit (l.lookaheadBy 2) = true
        · rw [if_neg (by simp [hd2])] at h
          exact ih _ _ _ s fl l' h
            ⟨fun _ => rfl, fun _ => List.mem_append_right acc (by decide)⟩
        · rw [if_pos (by simp [hd2])] at h
          injection h with h1
          injection h1 with hs h2
          injection h2 with hfl hl
          rw [← hs, ← hfl]
          exact ⟨fun hisf => hacc.mpr hisf, fun hmem => hacc.mp hmem⟩
      · rw [if_neg hdot] at h
        by_cases hdig : goIsDigit l.lookahead = true
        · rw [if_neg (by simp [hdig])] at h
          refine ih _ _ _ s fl l' h ?_
          have hne : l.lookahead ≠ '.' := by
            intro hc
            rw [hc] at hdig
            exact absurd hdig (by decide)
          constructor
          · intro hmem
            rcases List.mem_append.mp hmem with hm | hm
            · exact hacc.mp hm
            · exact absurd (List.mem_singleton.mp hm) (fun hx => hne hx.symm)
          · intro hisf
            exact List.mem_append_left _ (hacc.mpr hisf)
        · rw [if_pos (by simp [hdig])] at h
          injection h with h1
          injection h1 with hs h2
          injection h2 with hfl hl
          rw [← hs, ← hfl]
          exact ⟨fun hisf => hacc.mpr hisf, fun hmem => hacc.mp hmem⟩

/-- An identifier character (letter, digit or underscore) is not a
newline. -/
theorem identChar_ne_newline (c : Char)
    (h : goIsLetter c = true ∨ goIsDigit c = true ∨ c = '_') :
    c ≠ Char.ofNat 10 := by
  intro hc
  rw [hc] at h
  rcases h with h | h | h <;> exact absurd h (by decide)

/-- `parseKeywordOrIdentifierLoop` with adequate fuel: returns, preserves
source, tokens, errors and line, never moves the cursor backwards, and
consumes no newline. -/
theorem parseKeywordOrIdentifierLoop_spec :
    ∀ (fuel : Nat) (l : Lexer) (acc : List Char),
      l.source.length - l.current + 1 ≤ fuel →
      ∃ acc2 l', parseKeywordOrIdentifierLoop fuel l acc = some (acc2, l') ∧
        l'.source = l.source ∧ l'.tokens = l.tokens ∧ l'.errors = l.errors ∧
        l'.line = l.line ∧ l.current ≤ l'.current ∧
        (l'.source.drop l'.current).count (Char.ofNat 10)
          = (l.source.drop l.current).count (Char.ofNat 10) := by
  intro fuel
  induction fuel with
  | zero => intro l acc h; omega
  | succ f ih =>
    intro l acc h
    rw [parseKeywordOrIdentifierLoop]
    by_cases he : l.isEnd = true
    · rw [if_pos he]
      exact ⟨acc, l, rfl, rfl, rfl, rfl, rfl, Nat.le_refl _, rfl⟩
    · rw [if_neg he]
      have hlt : l.current < l.source.length := by rw [isEnd_iff] at he; omega
      have hla : l.lookahead = l.source.getD l.current zeroRune := by
        rw [Lexer.lookahead, if_neg he]
      by_cases hid : goIsLetter l.lookahead = true ∨ goIsDigit l.lookahead = true ∨
          l.lookahead = '_'
      · rw [if_neg (not_not_intro hid)]
        have hbound : l.advanceF.2.source.length - l.advanceF.2.current + 1 ≤ f := by
          rw [advanceF_source, advanceF_current]; omega
        obtain ⟨acc2, l', heq, hsrc, htok, herr, hline, hcur, hc⟩ :=
          ih l.advanceF.2 (acc ++ [l.lookahead]) hbound
        rw [advanceF_source] at hsrc
        rw [advanceF_tokens] at htok
        rw [advanceF_errors] at herr
        rw [advanceF_line] at hline
        rw [advanceF_current] at hcur
        rw [advanceF_source, advanceF_current] at hc
        refine ⟨acc2, l', heq, hsrc, htok, herr, hline, by omega, ?_⟩
        have hcnt := count_drop_succ l.source l.current hlt (Char.ofNat 10)
        have hne : l.source.getD l.current zeroRune ≠ Char.ofNat 10 := by
          rw [← hla]
          exact identChar_ne_newline _ hid
        rw [if_neg hne] at hcnt
        omega
      · rw [if_pos hid]
        exact ⟨acc, l, rfl, rfl, rfl, rfl, rfl, Nat.le_refl _, rfl⟩

/-- `lmatch` preserves source, tokens, errors and line, never moves the
cursor backwards, and — when the target is not a newline — consumes no
newline. -/
theorem lmatch_spec (l : Lexer) (target : Char) (ht : target ≠ Char.ofNat 10) :
    (l.lmatch target).2.source = l.source ∧
    (l.lmatch target).2.tokens = l.tokens ∧
    (l.lmatch target).2.errors = l.errors ∧
    (l.lmatch target).2.line = l.line ∧
    l.current ≤ (l.lmatch target).2.current ∧
    ((l.lmatch target).2.source.drop (l.lmatch target).2.current).count (Char.ofNat 10)
      = (l.source.drop l.current).count (Char.ofNat 10) := by
  rw [Lexer.lmatch]
  by_cases hl : l.lookahead = target
  · rw [if_pos hl]
    refine ⟨rfl, rfl, rfl, rfl, by rw [advanceF_current]; omega, ?_⟩
    rw [advanceF_source, advanceF_current]
    by_cases hcur : l.current < l.source.length
    · have hcnt := count_drop_succ l.source l.current hcur (Char.ofNat 10)
      have hne : l.source.getD l.current zeroRune ≠ Char.ofNat 10 := by
        have hla : l.lookahead = l.source.getD l.current zeroRune := by
          rw [Lexer.lookahead, if_neg (by rw [isEnd_iff]; omega)]
        rw [← hla, hl]
        exact ht
      rw [if_neg hne] at hcnt
      omega
    · rw [List.drop_eq_nil_of_le (by omega), List.drop_eq_nil_of_le (by omega)]
  · rw [if_neg hl]
    exact ⟨rfl, rfl, rfl, rfl, Nat.le_refl _, rfl⟩

/-- The `switch ch` dispatch preserves source, tokens, errors and line,
never moves the cursor backwards, consumes no newline, and any token it
produces has a non-`EOF` kind. -/
theorem scanSwitch_spec (ch : Char) (l : Lexer) :
    (scanSwitch ch l).2.source = l.source ∧
    (scanSwitch ch l).2.tokens = l.tokens ∧
    (scanSwitch ch l).2.errors = l.errors ∧
    (scanSwitch ch l).2.line = l.line ∧
    l.current ≤ (scanSwitch ch l).2.current ∧
    ((scanSwitch ch l).2.source.drop (scanSwitch ch l).2.current).count (Char.ofNat 10)
      = (l.source.drop l.current).count (Char.ofNat 10) ∧
    (∀ t, (scanSwitch ch l).1 = some t → t.kind ≠ TokenKind.EOF) := by
  obtain ⟨msrc, mtok, merr, mline, mcur, mcnt⟩ :=
    lmatch_spec l TokenKind.Eq.rune (by decide)
  rw [scanSwitch]
  rw [show TokenKind.LParen.rune = '(' from by decide,
      show TokenKind.RParen.rune = ')' from by decide,
      show TokenKind.LBrace.rune = '{' from by decide,
      show TokenKind.RBrace.rune = '}' from by decide,
      show TokenKind.Comma.rune = ',' from by decide,
      show TokenKind.Dot.rune = '.' from by decide,
      show TokenKind.Minus.rune = '-' from by decide,
      show TokenKind.Plus.rune = '+' from by decide,
      show TokenKind.Semicolon.rune = ';' from by decide,
      show TokenKind.Slash.rune = '/' from by decide,
      show TokenKind.Star.rune = '*' from by decide,
      show TokenKind.Bang.rune = '!' from by decide,
      show TokenKind.Eq.rune = '=' from by decide,
      show TokenKind.Greater.rune = '>' from by decide,
      show TokenKind.Less.rune = '<' from by decide]
  rcases hr0 : l.lmatch '=' with ⟨b, l2⟩
  rw [show TokenKind.Eq.rune = '=' from by decide] at msrc mtok merr mline mcur mcnt
  rw [hr0] at msrc mtok merr mline mcur mcnt
  cases b <;>
  (
  by_cases hc1 : ch = '('
  · rw [if_pos hc1]
    exact ⟨rfl, rfl, rfl, rfl, Nat.le_refl _, rfl, fun t ht => by cases ht <;> exact fun hk => TokenKind.noConfusion hk⟩
  · rw [if_neg hc1]
    by_cases hc2 : ch = ')'
    · rw [if_pos hc2]
      exact ⟨rfl, rfl, rfl, rfl, Nat.le_refl _, rfl, fun t ht => by cases ht <;> exact fun hk => TokenKind.noConfusion hk⟩
    · rw [if_neg hc2]
      by_cases hc3 : ch = '{'
      · rw [if_pos hc3]
        exact ⟨rfl, rfl, rfl, rfl, Nat.le_refl _, rfl, fun t ht => by cases ht <;> exact fun hk => TokenKind.noConfusion hk⟩
      · rw [if_neg hc3]
        by_cases hc4 : ch = '}'
        · rw [if_pos hc4]
          exact ⟨rfl, rfl, rfl, rfl, Nat.le_refl _, rfl, fun t ht => by cases ht <;> exact fun hk => TokenKind.noConfusion hk⟩
        · rw [if_neg hc4]
          by_cases hc5 : ch = ','
          · rw [if_pos hc5]
            exact ⟨rfl, rfl, rfl, rfl, Nat.le_refl _, rfl, fun t ht => by cases ht <;> exact fun hk => TokenKind.noConfusion hk⟩
          · rw [if_neg hc5]
            by_cases hc6 : ch = '.'
            · rw [if_pos hc6]
              exact ⟨rfl, rfl, rfl, rfl, Nat.le_refl _, rfl, fun t ht => by cases ht <;> exact fun hk => TokenKind.noConfusion hk⟩
            · rw [if_neg hc6]
              by_cases hc7 : ch = '-'
              · rw [if_pos hc7]
                exact ⟨rfl, rfl, rfl, rfl, Nat.le_refl _, rfl, fun t ht => by cases ht <;> exact fun hk => TokenKind.noConfusion hk⟩
              · rw [if_neg hc7]
                by_cases hc8 : ch = '+'
                · rw [if_pos hc8]
                  exact ⟨rfl, rfl, rfl, rfl, Nat.le_refl _, rfl, fun t ht => by cases ht <;> exact fun hk => TokenKind.noConfusion hk⟩
                · rw [if_neg hc8]
                  by_cases hc9 : ch = ';'
                  · rw [if_pos hc9]
                    exact ⟨rfl, rfl, rfl, rfl, Nat.le_refl _, rfl, fun t ht => by cases ht <;> exact fun hk => TokenKind.noConfusion hk⟩
                  · rw [if_neg hc9]
                    by_cases hc10 : ch = '/'
                    · rw [if_pos hc10]
                      exact ⟨rfl, rfl, rfl, rfl, Nat.le_refl _, rfl, fun t ht => by cases ht <;> exact fun hk => TokenKind.noConfusion hk⟩
                    · rw [if_neg hc10]
                      by_cases hc11 : ch = '*'
                      · rw [if_pos hc11]
                        exact ⟨rfl, rfl, rfl, rfl, Nat.le_refl _, rfl, fun t ht => by cases ht <;> exact fun hk => TokenKind.noConfusion hk⟩
                      · rw [if_neg hc11]
                        by_cases hc12 : ch = '!'
                        · rw [if_pos hc12]
                          exact ⟨msrc, mtok, merr, mline, mcur, mcnt, fun t ht => by cases ht <;> exact fun hk => TokenKind.noConfusion hk⟩
                        · rw [if_neg hc12]
                          by_cases hc13 : ch = '='
                          · rw [if_pos hc13]
                            exact ⟨msrc, mtok, merr, mline, mcur, mcnt, fun t ht => by cases ht <;> exact fun hk => TokenKind.noConfusion hk⟩
                          · rw [if_neg hc13]
                            by_cases hc14 : ch = '>'
                            · rw [if_pos hc14]
                              exact ⟨msrc, mtok, merr, mline, mcur, mcnt, fun t ht => by cases ht <;> exact fun hk => TokenKind.noConfusion hk⟩
                            · rw [if_neg hc14]
                              by_cases hc15 : ch = '<'
                              · rw [if_pos hc15]
                                exact ⟨msrc, mtok, merr, mline, mcur, mcnt, fun t ht => by cases ht <;> exact fun hk => TokenKind.noConfusion hk⟩
                              · rw [if_neg hc15]
                                exact ⟨rfl, rfl, rfl, rfl, Nat.le_refl _, rfl, fun t ht => by cases ht <;> exact fun hk => TokenKind.noConfusion hk⟩
  )

/-- A character that is not whitespace is not a newline. -/
theorem notSpace_ne_newline (c : Char) (h : ¬ goIsSpace c = true) :
    c ≠ Char.ofNat 10 := by
  intro hc
  rw [hc] at h
  exact h (by decide)

/-- `consumeSpaces`: returns, preserves source, tokens and errors, never
moves the cursor backwards, and conserves `line + newlines-remaining`
after the initial peek-newline bump. -/
theorem consumeSpaces_spec (l : Lexer) :
    ∃ l', consumeSpaces l = some l' ∧
      l'.source = l.source ∧ l'.tokens = l.tokens ∧ l'.errors = l.errors ∧
      l.current ≤ l'.current ∧
      l'.line + (l'.source.drop l'.current).count (Char.ofNat 10)
        = (if l.peekF = Char.ofNat 10 then l.line + 1 else l.line)
          + (l.source.drop l.current).count (Char.ofNat 10) := by
  rw [consumeSpaces]
  by_cases hp : l.peekF = Char.ofNat 10
  · rw [if_pos hp, if_pos hp]
    obtain ⟨l', heq, hsrc, htok, herr, hcur, hline⟩ :=
      consumeSpacesLoop_spec (l.source.length - l.current + 1) l.incLine
        (by simp [Lexer.incLine])
    refine ⟨l', heq, hsrc, htok, herr, hcur, ?_⟩
    simpa [Lexer.incLine] using hline
  · rw [if_neg hp, if_neg hp]
    exact consumeSpacesLoop_spec (l.source.length - l.current + 1) l
      (Nat.le_refl _)

/-- `parseString`: returns, preserves source, tokens, errors and line, and
never moves the cursor backwards. -/
theorem parseString_spec (l : Lexer) :
    ∃ res l', parseString l = some (res, l') ∧
      l'.source = l.source ∧ l'.tokens = l.tokens ∧ l'.errors = l.errors ∧
      l'.line = l.line ∧ l.current ≤ l'.current :=
  parseStringLoop_spec (l.source.length - l.current + 1) l [] (Nat.le_refl _)

/-- `parseNumber`: returns, preserves source, tokens, errors and line,
never moves the cursor backwards, and consumes no newline. -/
theorem parseNumber_spec (l : Lexer) :
    ∃ lexeme l', parseNumber l = some (lexeme, l') ∧
      l'.source = l.source ∧ l'.tokens = l.tokens ∧ l'.errors = l.errors ∧
      l'.line = l.line ∧ l.current ≤ l'.current ∧
      (l'.source.drop l'.current).count (Char.ofNat 10)
        = (l.source.drop l.current).count (Char.ofNat 10) := by
  obtain ⟨s, fl, l', heq, hsrc, htok, herr, hline, hcur, hc⟩ :=
    parseNumberLoop_spec (l.source.length - l.current + 1) l [l.peekF] false
      (Nat.le_refl _)
  refine ⟨s, l', ?_, hsrc, htok, herr, hline, hcur, hc⟩
  rw [parseNumber, heq]
  rfl

/-- `parseKeywordOrIdentifier`: returns, preserves source, tokens, errors
and line, never moves the cursor backwards, consumes no newline, and the
resulting kind is never `EOF`. -/
theorem parseKeywordOrIdentifier_spec (l : Lexer) :
    ∃ lexeme kind l', parseKeywordOrIdentifier l = some (lexeme, kind, l') ∧
      l'.source = l.source ∧ l'.tokens = l.tokens ∧ l'.errors = l.errors ∧
      l'.line = l.line ∧ l.current ≤ l'.current ∧
      (l'.source.drop l'.current).count (Char.ofNat 10)
        = (l.source.drop l.current).count (Char.ofNat 10) ∧
      kind ≠ TokenKind.EOF := by
  obtain ⟨acc2, l', heq, hsrc, htok, herr, hline, hcur, hc⟩ :=
    parseKeywordOrIdentifierLoop_spec (l.source.length - l.current + 1) l
      [l.peekF] (Nat.le_refl _)
  cases hk : tokenKindFromKeyword (String.mk acc2) with
  | some kind =>
    refine ⟨String.mk acc2, kind, l', ?_, hsrc, htok, herr, hline, hcur, hc,
      tokenKindFromKeyword_ne_EOF _ _ hk⟩
    rw [parseKeywordOrIdentifier, heq]
    simp only [Option.map, hk]
  | none =>
    refine ⟨String.mk acc2, TokenKind.Identifier, l', ?_, hsrc, htok, herr,
      hline, hcur, hc, by decide⟩
    rw [parseKeywordOrIdentifier, heq]
    simp only [Option.map, hk]

/-- The main scanning loop with adequate fuel: returns with the cursor at
the end of the source, only appends tokens (none of kind `EOF`) and errors,
and — on sources whose remaining part contains no double quote — finishes
with `line` equal to the starting line plus the number of remaining
newlines. -/
theorem scanTokensLoop_spec (classify : String → TokenKind)
    (hcl : ∀ s, classify s ≠ TokenKind.EOF) :
    ∀ (fuel : Nat) (l : Lexer),
      l.source.length - l.current + 1 ≤ fuel →
      ∃ l', scanTokensLoop classify fuel l = some l' ∧
        l'.source = l.source ∧
        l'.source.length ≤ l'.current ∧
        (∃ ts, l'.tokens = l.tokens ++ ts ∧ ∀ t ∈ ts, t.kind ≠ TokenKind.EOF) ∧
        (∃ es, l'.errors = l.errors ++ es) ∧
        ((∀ c ∈ l.source.drop l.current, c ≠ '"') →
          l'.line = l.line + (l.source.drop l.current).count (Char.ofNat 10)) := by
  intro fuel
  induction fuel with
  | zero => intro l h; omega
  | succ f ih =>
    intro l h
    rw [scanTokensLoop]
    by_cases he : l.isEnd = true
    · rw [if_pos he]
      rw [isEnd_iff] at he
      refine ⟨l, rfl, rfl, he, ⟨[], by simp, by simp⟩, ⟨[], by simp⟩, ?_⟩
      intro _
      rw [List.drop_eq_nil_of_le he]
      rfl
    · rw [if_neg he]
      simp only [Lexer.advanceF]
      have hlt : l.current < l.source.length := by rw [isEnd_iff] at he; omega
      set ch := l.source.getD l.current zeroRune with hch
      set l1 : Lexer := { l with start := l.current, current := l.current + 1 }
        with hl1
      have hchmem : ch ∈ l.source.drop l.current := getD_current_mem_drop l hlt
      have hcnt := count_drop_succ l.source l.current hlt (Char.ofNat 10)
      rw [← hch] at hcnt
      by_cases hsp : goIsSpace ch = true
      · rw [if_pos hsp]
        obtain ⟨l2, heq2, hsrc2, htok2, herr2, hcur2, hline2⟩ := consumeSpaces_spec l1
        rw [heq2]
        have hS : l2.source = l.source := hsrc2
        have hT : l2.tokens = l.tokens := htok2
        have hE : l2.errors = l.errors := herr2
        have hC : l.current + 1 ≤ l2.current := hcur2
        have hLE : l2.line + (l2.source.drop l2.current).count (Char.ofNat 10)
            = (if ch = Char.ofNat 10 then l.line + 1 else l.line)
              + (l.source.drop (l.current + 1)).count (Char.ofNat 10) := hline2
        rw [hS] at hLE
        have hSlen : l2.source.length = l.source.length := by rw [hS]
        have hbound : l2.source.length - l2.current + 1 ≤ f := by omega
        obtain ⟨l', heq', hsrc', hend', ⟨ts, hts, htsk⟩, ⟨es, hes⟩, hline'⟩ := ih l2 hbound
        refine ⟨l', heq', by rw [hsrc', hS], hend',
          ⟨ts, by rw [hts, hT], htsk⟩, ⟨es, by rw [hes, hE]⟩, ?_⟩
        intro hqf
        have hqf2 : ∀ c ∈ l2.source.drop l2.current, c ≠ '"' := by
          intro c hc
          rw [hS] at hc
          exact hqf c (mem_drop_of_le l.source l.current l2.current (by omega) c hc)
        have hl' := hline' hqf2
        rw [hS] at hl'
        by_cases hnl : ch = Char.ofNat 10
        · rw [if_pos hnl] at hLE hcnt
          omega
        · rw [if_neg hnl] at hLE hcnt
          omega
      · rw [if_neg hsp]
        by_cases hq : ch = '"'
        · rw [if_pos hq]
          obtain ⟨res, l2, heq2, hsrc2, htok2, herr2, hline2, hcur2⟩ := parseString_spec l1
          rw [heq2]
          have hS : l2.source = l.source := hsrc2
          have hT : l2.tokens = l.tokens := htok2
          have hE : l2.errors = l.errors := herr2
          have hC : l.current + 1 ≤ l2.current := hcur2
          have hSlen : l2.source.length = l.source.length := by rw [hS]
          cases res with
          | error e =>
            have hbound : l2.source.length - l2.current + 1 ≤ f := by omega
            obtain ⟨l', heq', hsrc', hend', ⟨ts, hts, htsk⟩, ⟨es, hes⟩, _⟩ :=
              ih { l2 with errors := l2.errors ++ [e] } hbound
            refine ⟨l', heq', ?_, hend', ⟨ts, ?_, htsk⟩, ⟨[e] ++ es, ?_⟩, ?_⟩
            · rw [hsrc']
              exact hS
            · rw [hts]
              show l2.tokens ++ ts = l.tokens ++ ts
              rw [hT]
            · rw [hes]
              show (l2.errors ++ [e]) ++ es = l.errors ++ ([e] ++ es)
              rw [hE, List.append_assoc]
            · intro hqf
              exact absurd hq (hqf ch hchmem)
          | ok lexeme =>
            have hbound : l2.source.length - l2.current + 1 ≤ f := by omega
            obtain ⟨l', heq', hsrc', hend', ⟨ts, hts, htsk⟩, ⟨es, hes⟩, _⟩ :=
              ih { l2 with tokens := l2.tokens ++ [NewToken .String lexeme l2.line] } hbound
            refine ⟨l', heq', ?_, hend',
              ⟨[NewToken .String lexeme l2.line] ++ ts, ?_, ?_⟩, ⟨es, ?_⟩, ?_⟩
            · rw [hsrc']
              exact hS
            · rw [hts]
              show (l2.tokens ++ [NewToken .String lexeme l2.line]) ++ ts
                = l.tokens ++ ([NewToken .String lexeme l2.line] ++ ts)
              rw [hT, List.append_assoc]
            · intro t ht
              rcases List.mem_append.mp ht with hm | hm
              · rw [List.mem_singleton.mp hm]
                exact fun hk => TokenKind.noConfusion hk
              · exact htsk t hm
            · rw [hes]
              show l2.errors ++ es = l.errors ++ es
              rw [hE]
            · intro hqf
              exact absurd hq (hqf ch hchmem)
        · rw [if_neg hq]
          by_cases hdg : goIsDigit ch = true
          · rw [if_pos hdg]
            obtain ⟨lexeme, l2, heq2, hsrc2, htok2, herr2, hline2, hcur2, hc2⟩ :=
              parseNumber_spec l1
            rw [heq2]
            have hS : l2.source = l.source := hsrc2
            have hT : l2.tokens = l.tokens := htok2
            have hE : l2.errors = l.errors := herr2
            have hLn : l2.line = l.line := hline2
            have hC : l.current + 1 ≤ l2.current := hcur2
            have hCnt : (l2.source.drop l2.current).count (Char.ofNat 10)
                = (l.source.drop (l.current + 1)).count (Char.ofNat 10) := hc2
            rw [hS] at hCnt
            have hSlen : l2.source.length = l.source.length := by rw [hS]
            have hbound : l2.source.length - l2.current + 1 ≤ f := by omega
            obtain ⟨l', heq', hsrc', hend', ⟨ts, hts, htsk⟩, ⟨es, hes⟩, hline'⟩ :=
              ih { l2 with tokens := l2.tokens ++ [NewToken (classify lexeme) lexeme l2.line] }
                hbound
            refine ⟨l', heq', ?_, hend',
              ⟨[NewToken (classify lexeme) lexeme l2.line] ++ ts, ?_, ?_⟩, ⟨es, ?_⟩, ?_⟩
            · rw [hsrc']
              exact hS
            · rw [hts]
              show (l2.tokens ++ [NewToken (classify lexeme) lexeme l2.line]) ++ ts
                = l.tokens ++ ([NewToken (classify lexeme) lexeme l2.line] ++ ts)
              rw [hT, List.append_assoc]
            · intro t ht
              rcases List.mem_append.mp ht with hm | hm
              · rw [List.mem_singleton.mp hm]
                exact hcl lexeme
              · exact htsk t hm
            · rw [hes]
              show l2.errors ++ es = l.errors ++ es
              rw [hE]
            · intro hqf
              have hqf2 : ∀ c ∈ l2.source.drop l2.current, c ≠ '"' := by
                intro c hc
                rw [hS] at hc
                exact hqf c (mem_drop_of_le l.source l.current l2.current (by omega) c hc)
              have hl' := hline' hqf2
              have hl'2 : l'.line = l2.line
                  + (l2.source.drop l2.current).count (Char.ofNat 10) := hl'
              rw [hS] at hl'2
              rw [if_neg (goIsDigit_ne_newline ch hdg)] at hcnt
              omega
          · rw [if_neg hdg]
            by_cases hlet : goIsLetter ch = true
            · rw [if_pos hlet]
              obtain ⟨lexeme, kind, l2, heq2, hsrc2, htok2, herr2, hline2, hcur2, hc2, hkind⟩ :=
                parseKeywordOrIdentifier_spec l1
              rw [heq2]
              have hS : l2.source = l.source := hsrc2
              have hT : l2.tokens = l.tokens := htok2
              have hE : l2.errors = l.errors := herr2
              have hLn : l2.line = l.line := hline2
              have hC : l.current + 1 ≤ l2.current := hcur2
              have hCnt : (l2.source.drop l2.current).count (Char.ofNat 10)
                  = (l.source.drop (l.current + 1)).count (Char.ofNat 10) := hc2
              rw [hS] at hCnt
              have hSlen : l2.source.length = l.source.length := by rw [hS]
              have hbound : l2.source.length - l2.current + 1 ≤ f := by omega
              obtain ⟨l', heq', hsrc', hend', ⟨ts, hts, htsk⟩, ⟨es, hes⟩, hline'⟩ :=
                ih { l2 with tokens := l2.tokens ++ [NewToken kind lexeme l2.line] } hbound
              refine ⟨l', heq', ?_, hend',
                ⟨[NewToken kind lexeme l2.line] ++ ts, ?_, ?_⟩, ⟨es, ?_⟩, ?_⟩
              · rw [hsrc']
                exact hS
              · rw [hts]
                show (l2.tokens ++ [NewToken kind lexeme l2.line]) ++ ts
                  = l.tokens ++ ([NewToken kind lexeme l2.line] ++ ts)
                rw [hT, List.append_assoc]
              · intro t ht
                rcases List.mem_append.mp ht with hm | hm
                · rw [List.mem_singleton.mp hm]
                  exact hkind
                · exact htsk t hm
              · rw [hes]
                show l2.errors ++ es = l.errors ++ es
                rw [hE]
              · intro hqf
                have hqf2 : ∀ c ∈ l2.source.drop l2.current, c ≠ '"' := by
                  intro c hc
                  rw [hS] at hc
                  exact hqf c (mem_drop_of_le l.source l.current l2.current (by omega) c hc)
                have hl' := hline' hqf2
                have hl'2 : l'.line = l2.line
                    + (l2.source.drop l2.current).count (Char.ofNat 10) := hl'
                rw [hS] at hl'2
                rw [if_neg (identChar_ne_newline ch (Or.inl hlet))] at hcnt
                omega
            · rw [if_neg hlet]
              obtain ⟨hssrc, hstok, hserr, hsline, hscur, hscnt, hskind⟩ :=
                scanSwitch_spec ch l1
              rcases hsw : scanSwitch ch l1 with ⟨ot, l2⟩
              rw [hsw] at hssrc hstok hserr hsline hscur hscnt hskind
              have hS : l2.source = l.source := hssrc
              have hT : l2.tokens = l.tokens := hstok
              have hE : l2.errors = l.errors := hserr
              have hLn : l2.line = l.line := hsline
              have hC : l.current + 1 ≤ l2.current := hscur
              have hCnt : (l2.source.drop l2.current).count (Char.ofNat 10)
                  = (l.source.drop (l.current + 1)).count (Char.ofNat 10) := hscnt
              rw [hS] at hCnt
              have hSlen : l2.source.length = l.source.length := by rw [hS]
              rw [if_neg (notSpace_ne_newline ch hsp)] at hcnt
              cases ot with
              | some tok =>
                have hbound : l2.source.length - l2.current + 1 ≤ f := by omega
                obtain ⟨l', heq', hsrc', hend', ⟨ts, hts, htsk⟩, ⟨es, hes⟩, hline'⟩ :=
                  ih { l2 with tokens := l2.tokens ++ [tok] } hbound
                refine ⟨l', heq', ?_, hend', ⟨[tok] ++ ts, ?_, ?_⟩, ⟨es, ?_⟩, ?_⟩
                · rw [hsrc']
                  exact hS
                · rw [hts]
                  show (l2.tokens ++ [tok]) ++ ts = l.tokens ++ ([tok] ++ ts)
                  rw [hT, List.append_assoc]
                · intro t ht
                  rcases List.mem_append.mp ht with hm | hm
                  · rw [List.mem_singleton.mp hm]
                    exact hskind tok rfl
                  · exact htsk t hm
                · rw [hes]
                  show l2.errors ++ es = l.errors ++ es
                  rw [hE]
                · intro hqf
                  have hqf2 : ∀ c ∈ l2.source.drop l2.current, c ≠ '"' := by
                    intro c hc
                    rw [hS] at hc
                    exact hqf c (mem_drop_of_le l.source l.current l2.current (by omega) c hc)
                  have hl' := hline' hqf2
                  have hl'2 : l'.line = l2.line
                      + (l2.source.drop l2.current).count (Char.ofNat 10) := hl'
                  rw [hS] at hl'2
                  omega
              | none =>
                have hbound : l2.source.length - l2.current + 1 ≤ f := by omega
                obtain ⟨l', heq', hsrc', hend', ⟨ts, hts, htsk⟩, ⟨es, hes⟩, hline'⟩ :=
                  ih { l2 with errors := l2.errors ++ ["Unexpected token"] } hbound
                refine ⟨l', heq', ?_, hend', ⟨ts, ?_, htsk⟩,
                  ⟨["Unexpected token"] ++ es, ?_⟩, ?_⟩
                · rw [hsrc']
                  exact hS
                · rw [hts]
                  show l2.tokens ++ ts = l.tokens ++ ts
                  rw [hT]
                · rw [hes]
                  show (l2.errors ++ ["Unexpected token"]) ++ es
                    = l.errors ++ (["Unexpected token"] ++ es)
                  rw [hE, List.append_assoc]
                · intro hqf
                  have hqf2 : ∀ c ∈ l2.source.drop l2.current, c ≠ '"' := by
                    intro c hc
                    rw [hS] at hc
                    exact hqf c (mem_drop_of_le l.source l.current l2.current (by omega) c hc)
                  have hl' := hline' hqf2
                  have hl'2 : l'.line = l2.line
                      + (l2.source.drop l2.current).count (Char.ofNat 10) := hl'
                  rw [hS] at hl'2
                  omega

/-- Scanning from a state whose cursor sits on a double quote with no
closing quote in the rest of the source: the loop appends exactly the
"unterminated string" error, appends no token, leaves the line counter
unchanged, and completes. -/
theorem scanLoop_unterminated_string (classify : String → TokenKind)
    (l : Lexer) (fuel : Nat)
    (hlt : l.current < l.source.length)
    (hq : l.source.getD l.current zeroRune = '"')
    (hnq : ∀ c ∈ l.source.drop (l.current + 1), c ≠ '"')
    (hfuel : l.source.length - l.current + 1 ≤ fuel) :
    ∃ l', scanTokensLoop classify fuel l = some l' ∧
      l'.tokens = l.tokens ∧
      l'.errors = l.errors ++ ["unterminated string"] ∧
      l'.line = l.line := by
  obtain ⟨f, rfl⟩ : ∃ f, fuel = f + 1 := by
    cases fuel with
    | zero => omega
    | succ f => exact ⟨f, rfl⟩
  have hf1 : 1 ≤ f := by omega
  rw [scanTokensLoop]
  rw [if_neg (by rw [isEnd_iff]; omega)]
  simp only [Lexer.advanceF]
  rw [hq]
  rw [if_neg (by decide)]
  rw [if_pos rfl]
  set l1 : Lexer := { l with start := l.current, current := l.current + 1 } with hl1
  have hnq1 : ∀ c ∈ l1.source.drop l1.current, c ≠ '"' := hnq
  obtain ⟨l2, heq2, hsrc2, htok2, herr2, hline2, hcur2, hend2⟩ :=
    parseStringLoop_no_quote (l1.source.length - l1.current + 1) l1 []
      (Nat.le_refl _) hnq1
  simp only [parseString, heq2]
  have hT : l2.tokens = l.tokens := htok2
  have hE : l2.errors = l.errors := herr2
  have hLn : l2.line = l.line := hline2
  have hEnd : l2.source.length ≤ l2.current := hend2
  obtain ⟨f', rfl⟩ : ∃ f', f = f' + 1 := by
    cases f with
    | zero => omega
    | succ f' => exact ⟨f', rfl⟩
  rw [scanTokensLoop]
  rw [if_pos (by rw [isEnd_iff]; exact hEnd)]
  refine ⟨{ l2 with errors := l2.errors ++ ["unterminated string"] }, rfl, hT, ?_, hLn⟩
  show l2.errors ++ ["unterminated string"] = l.errors ++ ["unterminated string"]
  rw [hE]

/-! ## C2, C3, C5 theorems -/

/-- C2 (amended): for every source, `ScanTokens` terminates (the fuelled
loop completes within its standard fuel) and the returned token sequence
ends with exactly one `EOF` token whose lexeme is empty; for sources
containing no double quote its line number is TWO greater than the number
of newline characters in the source (the scanner starts at line 1, counts
each newline in a whitespace run, and increments once more before
appending `EOF` — not one greater, as the scanner's own test with four
newlines and `EOF` at line 6 shows). -/
theorem scan_terminates_single_eof (source : List Char) :
    ∃ ts errs L, ScanTokens source = some (ts ++ [NewToken .EOF "" L], errs) ∧
      (∀ t ∈ ts, t.kind ≠ TokenKind.EOF) ∧
      ('"' ∉ source → L = 2 + source.count (Char.ofNat 10)) := by
  obtain ⟨l', heq, hsrc, hend, ⟨ts, hts, htsk⟩, ⟨es, hes⟩, hline⟩ :=
    scanTokensLoop_spec (fun _ => TokenKind.Number)
      (fun _ h => TokenKind.noConfusion h)
      (source.length + 1) (Lexer.new source) (by simp [Lexer.new])
  refine ⟨ts, l'.errors, l'.line + 1, ?_, htsk, ?_⟩
  · simp only [ScanTokens, scanTokensWith, heq]
    have hts' : l'.tokens = ts := by
      rw [hts]
      show ([] : List Token) ++ ts = ts
      exact List.nil_append ts
    rw [hts']
  · intro hq
    have hq' : ∀ c ∈ (Lexer.new source).source.drop (Lexer.new source).current,
        c ≠ '"' := by
      intro c hc hcq
      apply hq
      rw [← hcq]
      have hd : (Lexer.new source).source.drop (Lexer.new source).current = source := by
        show source.drop 0 = source
        exact List.drop_zero source
      rw [hd] at hc
      exact hc
    have hl := hline hq'
    have hl2 : l'.line = 1 + source.count (Char.ofNat 10) := by
      have : (Lexer.new source).source.drop (Lexer.new source).current = source := by
        show source.drop 0 = source
        exact List.drop_zero source
      rw [this] at hl
      exact hl
    omega

/-- C2 counterexample: on the empty source the scanner emits the `EOF`
token at line 2, but zero newline-terminated lines were consumed, so the
claimed "one greater" (line 1) is off by one. -/
theorem scan_empty_eof_line_two :
    ScanTokens [] = some ([NewToken .EOF "" 2], []) ∧
    ([] : List Char).count (Char.ofNat 10) = 0 ∧ (2 : Nat) ≠ 0 + 1 :=
  ⟨rfl, rfl, by decide⟩

/-- C2 witness: the amended theorem applied to the one-letter source "a"
(no quotes, no newlines: `EOF` lands on line 2). -/
theorem scan_terminates_single_eof_witness :
    ∃ ts errs, ScanTokens ['a'] = some (ts ++ [NewToken .EOF "" 2], errs) ∧
      ∀ t ∈ ts, t.kind ≠ TokenKind.EOF := by
  obtain ⟨ts, errs, L, h1, h2, h3⟩ := scan_terminates_single_eof ['a']
  have hL : L = 2 := by
    rw [h3 (by decide)]
    decide
  rw [hL] at h1
  exact ⟨ts, errs, h1, h2⟩

/-- C3 (spec-modelled classification): scanning "1234 12.25 .9" with the
Integer/Float scanner yields Integer("1234"), Float("12.25"), Dot,
Integer("9") and then the trailing EOF — a leading-dot numeral is not a
float, the dot becomes a separate Dot token — and in general the number
loop's float flag is set iff a dot (followed by a further digit) was
consumed into the lexeme. -/
theorem scan_number_dot_classification :
    ScanTokensIF ("1234 12.25 .9".toList) = some
      ([NewToken .Integer "1234" 1, NewToken .Float "12.25" 1,
        NewToken .Dot "." 1, NewToken .Integer "9" 1, NewToken .EOF "" 2], []) ∧
    (∀ (fuel : Nat) (l : Lexer) (c : Char) (s : String) (fl : Bool) (l' : Lexer),
      goIsDigit c = true →
      parseNumberLoop fuel l [c] false = some (s, fl, l') →
      (fl = true ↔ '.' ∈ s.toList)) := by
  refine ⟨by rfl, ?_⟩
  intro fuel l c s fl l' hc h
  refine parseNumberLoop_isFloat fuel l [c] false s fl l' h ?_
  constructor
  · intro hmem
    have := List.mem_singleton.mp hmem
    rw [← this] at hc
    exact absurd hc (by decide)
  · intro hfalse
    exact absurd hfalse (by decide)

/-- C3 witness: the float-flag clause applied to the one-digit numeral
"1": the flag is false and the lexeme contains no dot. -/
theorem scan_number_dot_classification_witness :
    (false = true ↔ '.' ∈ ("1" : String).toList) :=
  scan_number_dot_classification.2 1 (Lexer.mk ['1'] [] [] 0 1 1) '1' "1" false
    (Lexer.mk ['1'] [] [] 0 1 1) (by decide) rfl

/-- C5: reaching a double quote that is never closed before end of input
makes `ScanTokens` append exactly one "unterminated string" lexical error
and no `String` token (the token list is exactly the tokens recognized
before the failure), and scanning still returns normally with the
trailing `EOF` token; in particular a source that IS an unterminated
string scans to just the `EOF` token plus that one error. -/
theorem unterminated_string_one_error :
    (∀ (l : Lexer) (fuel : Nat),
      l.current < l.source.length →
      l.source.getD l.current zeroRune = '"' →
      (∀ c ∈ l.source.drop (l.current + 1), c ≠ '"') →
      l.source.length - l.current + 1 ≤ fuel →
      ∃ l', scanTokensLoop (fun _ => TokenKind.Number) fuel l = some l' ∧
        l'.tokens = l.tokens ∧
        l'.errors = l.errors ++ ["unterminated string"] ∧
        l'.line = l.line) ∧
    (∀ cs : List Char, '"' ∉ cs →
      ScanTokens ('"' :: cs) = some ([NewToken .EOF "" 2], ["unterminated string"])) := by
  constructor
  · intro l fuel hlt hq hnq hfuel
    exact scanLoop_unterminated_string (fun _ => TokenKind.Number) l fuel hlt hq hnq hfuel
  · intro cs hq
    obtain ⟨l', heq, htok, herr, hline⟩ :=
      scanLoop_unterminated_string (fun _ => TokenKind.Number)
        (Lexer.new ('"' :: cs)) (('"' :: cs).length + 1)
        (by simp [Lexer.new])
        (by rfl)
        (by
          intro c hc hcq
          apply hq
          rw [← hcq]
          have hdrop : (Lexer.new ('"' :: cs)).source.drop
              ((Lexer.new ('"' :: cs)).current + 1) = cs := rfl
          rw [hdrop] at hc
          exact hc)
        (by simp [Lexer.new])
    simp only [ScanTokens, scanTokensWith, heq]
    have ht : l'.tokens = [] := htok
    have he : l'.errors = ["unterminated string"] := by
      rw [herr]
      rfl
    have hl : l'.line = 1 := hline
    rw [ht, he, hl]
    rfl

/-- C5 witness: the concrete unterminated string source `"abc`. -/
theorem unterminated_string_one_error_witness :
    ScanTokens ('"' :: "abc".toList) = some ([NewToken .EOF "" 2], ["unterminated string"]) :=
  unterminated_string_one_error.2 ("abc".toList) (by decide)

/-! ## ParserV2 lemmas: bounded-access descent on paren-free token slices -/

namespace ParserV2

theorem peek_ok (st : PState) (h : st.current < st.tokens.length) :
    peek st = .ok (st.tokens.getD st.current dTok) := by
  rw [peek, if_pos h]

theorem advance_ok (st : PState) (h : st.current < st.tokens.length) :
    advance st = .ok (st.tokens.getD st.current dTok,
      { st with current := st.current + 1 }) := by
  rw [advance, peek_ok st h]

theorem pmatch_eval (st : PState) (targets : List TokenKind)
    (h : st.current < st.tokens.length) :
    pmatch st targets
      = .ok (decide ((st.tokens.getD st.current dTok).kind ∈ targets)) := by
  rw [pmatch, peek_ok st h]

/-- A token usable strictly before the final EOF of a paren-free slice:
not a parenthesis, not EOF, and with a lexeme that its kind's literal
conversion accepts. -/
def MidOK (t : Token) : Prop :=
  t.kind ≠ TokenKind.LParen ∧ t.kind ≠ TokenKind.RParen ∧
  t.kind ≠ TokenKind.EOF ∧
  (t.kind = TokenKind.Number → (goParseFloatQ t.lexeme).isSome = true) ∧
  ((t.kind = TokenKind.True ∨ t.kind = TokenKind.False) →
    (goParseBool t.lexeme).isSome = true)

instance midOKDec (t : Token) : Decidable (MidOK t) := by
  unfold MidOK
  infer_instance

/-- Parse-state invariant: the cursor is strictly inside the token slice,
every token from the cursor up to (excluding) the last position is
`MidOK`, and the last token has kind EOF. -/
def INV (st : PState) : Prop :=
  st.current < st.tokens.length ∧
  (∀ i, st.current ≤ i → i + 1 < st.tokens.length →
    MidOK (st.tokens.getD i dTok)) ∧
  (st.tokens.getD (st.tokens.length - 1) dTok).kind = TokenKind.EOF

/-- What a successful paren-free parse step guarantees about the state:
tokens untouched, cursor monotone and still strictly inside the slice,
errors only appended. -/
def PGood (st st' : PState) : Prop :=
  st'.tokens = st.tokens ∧ st.current ≤ st'.current ∧
  st'.current < st.tokens.length ∧ ∃ es, st'.errors = st.errors ++ es

theorem PGood_refl (st : PState) (h : st.current < st.tokens.length) :
    PGood st st :=
  ⟨rfl, Nat.le_refl _, h, [], by simp⟩

theorem PGood_trans {st1 st2 st3 : PState} (h12 : PGood st1 st2)
    (h23 : PGood st2 st3) : PGood st1 st3 := by
  obtain ⟨ht12, hc12, hl12, es12, he12⟩ := h12
  obtain ⟨ht23, hc23, hl23, es23, he23⟩ := h23
  refine ⟨by rw [ht23, ht12], by omega, by rw [ht12] at hl23; exact hl23,
    es12 ++ es23, ?_⟩
  rw [he23, he12, List.append_assoc]

theorem INV_of_PGood {st st' : PState} (h : INV st) (hg : PGood st st') :
    INV st' := by
  obtain ⟨h1, h2, h3⟩ := h
  obtain ⟨ht, hc, hl, _⟩ := hg
  refine ⟨by rw [ht]; exact hl, ?_, ?_⟩
  · intro i hi1 hi2
    rw [ht] at hi2 ⊢
    exact h2 i (by omega) hi2
  · rw [ht]
    exact h3

/-- Advancing over a non-EOF token keeps the invariant (and the new
cursor is still strictly inside the slice). -/
theorem INV_advance (st : PState) (h : INV st)
    (hk : (st.tokens.getD st.current dTok).kind ≠ TokenKind.EOF) :
    INV { st with current := st.current + 1 } ∧
    st.current + 1 < st.tokens.length := by
  obtain ⟨h1, h2, h3⟩ := h
  have hne : st.current ≠ st.tokens.length - 1 := by
    intro hc
    rw [hc] at hk
    exact hk h3
  have hlt : st.current + 1 < st.tokens.length := by omega
  refine ⟨⟨hlt, ?_, h3⟩, hlt⟩
  intro i hi1 hi2
  have hi1a : st.current + 1 ≤ i := hi1
  have hi2a : i + 1 < st.tokens.length := hi2
  exact h2 i (by omega) hi2a

/-- The token under the cursor of an invariant state is EOF or `MidOK`. -/
theorem INV_current_cases (st : PState) (h : INV st) :
    (st.tokens.getD st.current dTok).kind = TokenKind.EOF ∨
    MidOK (st.tokens.getD st.current dTok) := by
  obtain ⟨h1, h2, h3⟩ := h
  by_cases hc : st.current + 1 < st.tokens.length
  · exact Or.inr (h2 st.current (Nat.le_refl _) hc)
  · left
    have hcl : st.current = st.tokens.length - 1 := by omega
    rw [hcl]
    exact h3

/-- Fuel requirement offsets per rank (one budget unit of six per
remaining token, plus the rank's depth in the precedence chain). -/
def rankBound : Rank → Nat
  | .eq => 7
  | .eqLoop _ => 6
  | .comp => 6
  | .compLoop _ => 5
  | .term => 5
  | .termLoop _ => 4
  | .factor => 4
  | .factorLoop _ => 3
  | .unary => 3
  | .primary => 2
  | .literal => 1

theorem rankBound_pos (r : Rank) : 1 ≤ rankBound r := by
  cases r <;> simp [rankBound]

end ParserV2

namespace ParserV2

/-- On an invariant (paren-free, EOF-terminated, well-lexed) state, every
parse function returns successfully — no index is ever out of range, no Go
panic fires, and the fuel bound suffices — and the resulting state only
advances the cursor within bounds and appends errors. -/
theorem parseStep_spec :
    ∀ (fuel : Nat) (r : Rank) (st : PState),
      INV st →
      (r = Rank.literal →
        (st.tokens.getD st.current dTok).kind ∈
          [TokenKind.String, TokenKind.Number, TokenKind.True,
           TokenKind.False, TokenKind.Null]) →
      6 * (st.tokens.length - st.current) + rankBound r ≤ fuel →
      ∃ n st', parseStep r fuel st = .ok (n, st') ∧ PGood st st' := by
  intro fuel
  induction fuel with
  | zero =>
    intro r st _ _ hb
    have := rankBound_pos r
    omega
  | succ f ih =>
    intro r st hINV hlit hb
    have hcur : st.current < st.tokens.length := hINV.1
    cases r with
    | eq =>
      rw [parseStep]
      obtain ⟨n1, st1, heq1, hg1⟩ := ih .comp st hINV
        (fun h => Rank.noConfusion h)
        (by
          show 6 * (st.tokens.length - st.current) + 6 ≤ f
          have hb2 : 6 * (st.tokens.length - st.current) + 7 ≤ f + 1 := hb
          omega)
      simp only [heq1]
      obtain ⟨ht1, hc1, hl1, es1, he1⟩ := hg1
      have hINV1 : INV st1 := INV_of_PGood hINV ⟨ht1, hc1, hl1, es1, he1⟩
      obtain ⟨n2, st2, heq2, hg2⟩ := ih (.eqLoop n1) st1 hINV1
        (fun h => Rank.noConfusion h)
        (by
          show 6 * (st1.tokens.length - st1.current) + 6 ≤ f
          have hb2 : 6 * (st.tokens.length - st.current) + 7 ≤ f + 1 := hb
          have hlen : st1.tokens.length = st.tokens.length := by rw [ht1]
          omega)
      exact ⟨n2, st2, heq2, PGood_trans ⟨ht1, hc1, hl1, es1, he1⟩ hg2⟩
    | comp =>
      rw [parseStep]
      obtain ⟨n1, st1, heq1, hg1⟩ := ih .term st hINV
        (fun h => Rank.noConfusion h)
        (by
          show 6 * (st.tokens.length - st.current) + 5 ≤ f
          have hb2 : 6 * (st.tokens.length - st.current) + 6 ≤ f + 1 := hb
          omega)
      simp only [heq1]
      obtain ⟨ht1, hc1, hl1, es1, he1⟩ := hg1
      have hINV1 : INV st1 := INV_of_PGood hINV ⟨ht1, hc1, hl1, es1, he1⟩
      obtain ⟨n2, st2, heq2, hg2⟩ := ih (.compLoop n1) st1 hINV1
        (fun h => Rank.noConfusion h)
        (by
          show 6 * (st1.tokens.length - st1.current) + 5 ≤ f
          have hb2 : 6 * (st.tokens.length - st.current) + 6 ≤ f + 1 := hb
          have hlen : st1.tokens.length = st.tokens.length := by rw [ht1]
          omega)
      exact ⟨n2, st2, heq2, PGood_trans ⟨ht1, hc1, hl1, es1, he1⟩ hg2⟩
    | term =>
      rw [parseStep]
      obtain ⟨n1, st1, heq1, hg1⟩ := ih .factor st hINV
        (fun h => Rank.noConfusion h)
        (by
          show 6 * (st.tokens.length - st.current) + 4 ≤ f
          have hb2 : 6 * (st.tokens.length - st.current) + 5 ≤ f + 1 := hb
          omega)
      simp only [heq1]
      obtain ⟨ht1, hc1, hl1, es1, he1⟩ := hg1
      have hINV1 : INV st1 := INV_of_PGood hINV ⟨ht1, hc1, hl1, es1, he1⟩
      obtain ⟨n2, st2, heq2, hg2⟩ := ih (.termLoop n1) st1 hINV1
        (fun h => Rank.noConfusion h)
        (by
          show 6 * (st1.tokens.length - st1.current) + 4 ≤ f
          have hb2 : 6 * (st.tokens.length - st.current) + 5 ≤ f + 1 := hb
          have hlen : st1.tokens.length = st.tokens.length := by rw [ht1]
          omega)
      exact ⟨n2, st2, heq2, PGood_trans ⟨ht1, hc1, hl1, es1, he1⟩ hg2⟩
    | factor =>
      rw [parseStep]
      obtain ⟨n1, st1, heq1, hg1⟩ := ih .unary st hINV
        (fun h => Rank.noConfusion h)
        (by
          show 6 * (st.tokens.length - st.current) + 3 ≤ f
          have hb2 : 6 * (st.tokens.length - st.current) + 4 ≤ f + 1 := hb
          omega)
      simp only [heq1]
      obtain ⟨ht1, hc1, hl1, es1, he1⟩ := hg1
      have hINV1 : INV st1 := INV_of_PGood hINV ⟨ht1, hc1, hl1, es1, he1⟩
      obtain ⟨n2, st2, heq2, hg2⟩ := ih (.factorLoop n1) st1 hINV1
        (fun h => Rank.noConfusion h)
        (by
          show 6 * (st1.tokens.length - st1.current) + 3 ≤ f
          have hb2 : 6 * (st.tokens.length - st.current) + 4 ≤ f + 1 := hb
          have hlen : st1.tokens.length = st.tokens.length := by rw [ht1]
          omega)
      exact ⟨n2, st2, heq2, PGood_trans ⟨ht1, hc1, hl1, es1, he1⟩ hg2⟩
    | eqLoop left =>
      rw [parseStep]
      have hne : ¬ (isEnd st = true) := by
        simp [isEnd]
        omega
      rw [if_neg hne]
      rw [pmatch_eval st [TokenKind.DoubleEq, TokenKind.BangEq] hcur]
      by_cases hmem : (st.tokens.getD st.current dTok).kind ∈ [TokenKind.DoubleEq, TokenKind.BangEq]
      · simp only [decide_eq_true hmem]
        simp only [peek_ok st hcur, advance_ok st hcur]
        have hkne : (st.tokens.getD st.current dTok).kind ≠ TokenKind.EOF := by
          simp only [List.mem_cons, List.not_mem_nil, or_false] at hmem
          rcases hmem with h | h <;> (rw [h]; decide)
        obtain ⟨hINV1, hlt1⟩ := INV_advance st hINV hkne
        have hg01 : PGood st { st with current := st.current + 1 } :=
          ⟨rfl, Nat.le_succ _, hlt1, [], by simp⟩
        obtain ⟨right, st2, heq2, hg2⟩ :=
          ih .comp { st with current := st.current + 1 } hINV1
            (fun h => Rank.noConfusion h)
            (by
              show 6 * (st.tokens.length - (st.current + 1)) + 6 ≤ f
              have hb2 : 6 * (st.tokens.length - st.current) + 6 ≤ f + 1 := hb
              omega)
        simp only [heq2]
        obtain ⟨ht2, hc2, hl2, es2, he2⟩ := hg2
        have hINV2 : INV st2 := INV_of_PGood hINV1 ⟨ht2, hc2, hl2, es2, he2⟩
        have hg02 : PGood st st2 := PGood_trans hg01 ⟨ht2, hc2, hl2, es2, he2⟩
        obtain ⟨n3, st3, heq3, hg3⟩ :=
          ih (.eqLoop (Node.binary left (st.tokens.getD st.current dTok) right))
            st2 hINV2
            (fun h => Rank.noConfusion h)
            (by
              show 6 * (st2.tokens.length - st2.current) + 6 ≤ f
              have hb2 : 6 * (st.tokens.length - st.current) + 6 ≤ f + 1 := hb
              have hlen : st2.tokens.length = st.tokens.length := by rw [hg02.1]
              have hcc : st.current + 1 ≤ st2.current := hc2
              omega)
        exact ⟨n3, st3, heq3, PGood_trans hg02 hg3⟩
      · simp only [decide_eq_false hmem]
        exact ⟨left, st, rfl, PGood_refl st hcur⟩
    | compLoop left =>
      rw [parseStep]
      have hne : ¬ (isEnd st = true) := by
        simp [isEnd]
        omega
      rw [if_neg hne]
      rw [pmatch_eval st [TokenKind.Greater, TokenKind.GreaterEq, TokenKind.Less, TokenKind.LessEq] hcur]
      by_cases hmem : (st.tokens.getD st.current dTok).kind ∈ [TokenKind.Greater, TokenKind.GreaterEq, TokenKind.Less, TokenKind.LessEq]
      · simp only [decide_eq_true hmem]
        simp only [peek_ok st hcur, advance_ok st hcur]
        have hkne : (st.tokens.getD st.current dTok).kind ≠ TokenKind.EOF := by
          simp only [List.mem_cons, List.not_mem_nil, or_false] at hmem
          rcases hmem with h | h | h | h <;> (rw [h]; decide)
        obtain ⟨hINV1, hlt1⟩ := INV_advance st hINV hkne
        have hg01 : PGood st { st with current := st.current + 1 } :=
          ⟨rfl, Nat.le_succ _, hlt1, [], by simp⟩
        obtain ⟨right, st2, heq2, hg2⟩ :=
          ih .term { st with current := st.current + 1 } hINV1
            (fun h => Rank.noConfusion h)
            (by
              show 6 * (st.tokens.length - (st.current + 1)) + 5 ≤ f
              have hb2 : 6 * (st.tokens.length - st.current) + 5 ≤ f + 1 := hb
              omega)
        simp only [heq2]
        obtain ⟨ht2, hc2, hl2, es2, he2⟩ := hg2
        have hINV2 : INV st2 := INV_of_PGood hINV1 ⟨ht2, hc2, hl2, es2, he2⟩
        have hg02 : PGood st st2 := PGood_trans hg01 ⟨ht2, hc2, hl2, es2, he2⟩
        obtain ⟨n3, st3, heq3, hg3⟩ :=
          ih (.compLoop (Node.binary left (st.tokens.getD st.current dTok) right))
            st2 hINV2
            (fun h => Rank.noConfusion h)
            (by
              show 6 * (st2.tokens.length - st2.current) + 5 ≤ f
              have hb2 : 6 * (st.tokens.length - st.current) + 5 ≤ f + 1 := hb
              have hlen : st2.tokens.length = st.tokens.length := by rw [hg02.1]
              have hcc : st.current + 1 ≤ st2.current := hc2
              omega)
        exact ⟨n3, st3, heq3, PGood_trans hg02 hg3⟩
      · simp only [decide_eq_false hmem]
        exact ⟨left, st, rfl, PGood_refl st hcur⟩
    | termLoop left =>
      rw [parseStep]
      have hne : ¬ (isEnd st = true) := by
        simp [isEnd]
        omega
      rw [if_neg hne]
      rw [pmatch_eval st [TokenKind.Plus, TokenKind.Minus] hcur]
      by_cases hmem : (st.tokens.getD st.current dTok).kind ∈ [TokenKind.Plus, TokenKind.Minus]
      · simp only [decide_eq_true hmem]
        simp only [peek_ok st hcur, advance_ok st hcur]
        have hkne : (st.tokens.getD st.current dTok).kind ≠ TokenKind.EOF := by
          simp only [List.mem_cons, List.not_mem_nil, or_false] at hmem
          rcases hmem with h | h <;> (rw [h]; decide)
        obtain ⟨hINV1, hlt1⟩ := INV_advance st hINV hkne
        have hg01 : PGood st { st with current := st.current + 1 } :=
          ⟨rfl, Nat.le_succ _, hlt1, [], by simp⟩
        obtain ⟨right, st2, heq2, hg2⟩ :=
          ih .factor { st with current := st.current + 1 } hINV1
            (fun h => Rank.noConfusion h)
            (by
              show 6 * (st.tokens.length - (st.current + 1)) + 4 ≤ f
              have hb2 : 6 * (st.tokens.length - st.current) + 4 ≤ f + 1 := hb
              omega)
        simp only [heq2]
        obtain ⟨ht2, hc2, hl2, es2, he2⟩ := hg2
        have hINV2 : INV st2 := INV_of_PGood hINV1 ⟨ht2, hc2, hl2, es2, he2⟩
        have hg02 : PGood st st2 := PGood_trans hg01 ⟨ht2, hc2, hl2, es2, he2⟩
        obtain ⟨n3, st3, heq3, hg3⟩ :=
          ih (.termLoop (Node.binary left (st.tokens.getD st.current dTok) right))
            st2 hINV2
            (fun h => Rank.noConfusion h)
            (by
              show 6 * (st2.tokens.length - st2.current) + 4 ≤ f
              have hb2 : 6 * (st.tokens.length - st.current) + 4 ≤ f + 1 := hb
              have hlen : st2.tokens.length = st.tokens.length := by rw [hg02.1]
              have hcc : st.current + 1 ≤ st2.current := hc2
              omega)
        exact ⟨n3, st3, heq3, PGood_trans hg02 hg3⟩
      · simp only [decide_eq_false hmem]
        exact ⟨left, st, rfl, PGood_refl st hcur⟩
    | factorLoop left =>
      rw [parseStep]
      have hne : ¬ (isEnd st = true) := by
        simp [isEnd]
        omega
      rw [if_neg hne]
      rw [pmatch_eval st [TokenKind.Star, TokenKind.Slash] hcur]
      by_cases hmem : (st.tokens.getD st.current dTok).kind ∈ [TokenKind.Star, TokenKind.Slash]
      · simp only [decide_eq_true hmem]
        simp only [peek_ok st hcur, advance_ok st hcur]
        have hkne : (st.tokens.getD st.current dTok).kind ≠ TokenKind.EOF := by
          simp only [List.mem_cons, List.not_mem_nil, or_false] at hmem
          rcases hmem with h | h <;> (rw [h]; decide)
        obtain ⟨hINV1, hlt1⟩ := INV_advance st hINV hkne
        have hg01 : PGood st { st with current := st.current + 1 } :=
          ⟨rfl, Nat.le_succ _, hlt1, [], by simp⟩
        obtain ⟨right, st2, heq2, hg2⟩ :=
          ih .unary { st with current := st.current + 1 } hINV1
            (fun h => Rank.noConfusion h)
            (by
              show 6 * (st.tokens.length - (st.current + 1)) + 3 ≤ f
              have hb2 : 6 * (st.tokens.length - st.current) + 3 ≤ f + 1 := hb
              omega)
        simp only [heq2]
        obtain ⟨ht2, hc2, hl2, es2, he2⟩ := hg2
        have hINV2 : INV st2 := INV_of_PGood hINV1 ⟨ht2, hc2, hl2, es2, he2⟩
        have hg02 : PGood st st2 := PGood_trans hg01 ⟨ht2, hc2, hl2, es2, he2⟩
        obtain ⟨n3, st3, heq3, hg3⟩ :=
          ih (.factorLoop (Node.binary left (st.tokens.getD st.current dTok) right))
            st2 hINV2
            (fun h => Rank.noConfusion h)
            (by
              show 6 * (st2.tokens.length - st2.current) + 3 ≤ f
              have hb2 : 6 * (st.tokens.length - st.current) + 3 ≤ f + 1 := hb
              have hlen : st2.tokens.length = st.tokens.length := by rw [hg02.1]
              have hcc : st.current + 1 ≤ st2.current := hc2
              omega)
        exact ⟨n3, st3, heq3, PGood_trans hg02 hg3⟩
      · simp only [decide_eq_false hmem]
        exact ⟨left, st, rfl, PGood_refl st hcur⟩
    | unary =>
      rw [parseStep]
      rw [pmatch_eval st [TokenKind.Minus, TokenKind.Bang] hcur]
      by_cases hmem : (st.tokens.getD st.current dTok).kind
          ∈ [TokenKind.Minus, TokenKind.Bang]
      · simp only [decide_eq_true hmem]
        simp only [peek_ok st hcur, advance_ok st hcur]
        have hkne : (st.tokens.getD st.current dTok).kind ≠ TokenKind.EOF := by
          simp only [List.mem_cons, List.not_mem_nil, or_false] at hmem
          rcases hmem with h | h <;> (rw [h]; decide)
        obtain ⟨hINV1, hlt1⟩ := INV_advance st hINV hkne
        have hg01 : PGood st { st with current := st.current + 1 } :=
          ⟨rfl, Nat.le_succ _, hlt1, [], by simp⟩
        obtain ⟨node, st2, heq2, hg2⟩ :=
          ih .unary { st with current := st.current + 1 } hINV1
            (fun h => Rank.noConfusion h)
            (by
              show 6 * (st.tokens.length - (st.current + 1)) + 3 ≤ f
              have hb2 : 6 * (st.tokens.length - st.current) + 3 ≤ f + 1 := hb
              omega)
        simp only [heq2]
        exact ⟨Node.unary (st.tokens.getD st.current dTok) node, st2, rfl,
          PGood_trans hg01 hg2⟩
      · simp only [decide_eq_false hmem]
        exact ih .primary st hINV (fun h => Rank.noConfusion h)
          (by
            show 6 * (st.tokens.length - st.current) + 2 ≤ f
            have hb2 : 6 * (st.tokens.length - st.current) + 3 ≤ f + 1 := hb
            omega)
    | primary =>
      rw [parseStep]
      rw [pmatch_eval st [TokenKind.LParen] hcur]
      have hnotlp : ¬ ((st.tokens.getD st.current dTok).kind
          ∈ [TokenKind.LParen]) := by
        intro hm
        have hk := List.mem_singleton.mp hm
        rcases INV_current_cases st hINV with he | hmid
        · rw [hk] at he
          exact TokenKind.noConfusion he
        · exact hmid.1 hk
      simp only [decide_eq_false hnotlp]
      rw [pmatch_eval st [TokenKind.String, TokenKind.Number, TokenKind.True,
        TokenKind.False, TokenKind.Null] hcur]
      by_cases hlitm : (st.tokens.getD st.current dTok).kind
          ∈ [TokenKind.String, TokenKind.Number, TokenKind.True,
             TokenKind.False, TokenKind.Null]
      · simp only [decide_eq_true hlitm]
        exact ih .literal st hINV (fun _ => hlitm)
          (by
            show 6 * (st.tokens.length - st.current) + 1 ≤ f
            have hb2 : 6 * (st.tokens.length - st.current) + 2 ≤ f + 1 := hb
            omega)
      · simp only [decide_eq_false hlitm]
        refine ⟨Node.nilNode, registerError st "Literal expected", rfl,
          rfl, Nat.le_refl _, hcur, ["Literal expected"], rfl⟩
    | literal =>
      have hkinds := hlit rfl
      rw [parseStep]
      simp only [peek_ok st hcur]
      have hkne : (st.tokens.getD st.current dTok).kind ≠ TokenKind.EOF := by
        simp only [List.mem_cons, List.not_mem_nil, or_false] at hkinds
        rcases hkinds with h | h | h | h | h <;> (rw [h]; decide)
      obtain ⟨hINV1, hlt1⟩ := INV_advance st hINV hkne
      have hg01 : PGood st { st with current := st.current + 1 } :=
        ⟨rfl, Nat.le_succ _, hlt1, [], by simp⟩
      have hmid : MidOK (st.tokens.getD st.current dTok) := by
        rcases INV_current_cases st hINV with he | hmid
        · exact absurd he hkne
        · exact hmid
      simp only [List.mem_cons, List.not_mem_nil, or_false] at hkinds
      rcases hkinds with h | h | h | h | h
      · simp only [h]
        simp only [advance_ok st hcur]
        exact ⟨Node.primary (.vStr (st.tokens.getD st.current dTok).lexeme),
          { st with current := st.current + 1 }, rfl, hg01⟩
      · obtain ⟨q, hq⟩ := Option.isSome_iff_exists.mp (hmid.2.2.2.1 h)
        simp only [h, hq]
        simp only [advance_ok st hcur]
        exact ⟨Node.primary (.vFloat q),
          { st with current := st.current + 1 }, rfl, hg01⟩
      · obtain ⟨b, hbq⟩ := Option.isSome_iff_exists.mp
          (hmid.2.2.2.2 (Or.inl h))
        simp only [h, hbq]
        simp only [advance_ok st hcur]
        exact ⟨Node.primary (.vBool b),
          { st with current := st.current + 1 }, rfl, hg01⟩
      · obtain ⟨b, hbq⟩ := Option.isSome_iff_exists.mp
          (hmid.2.2.2.2 (Or.inr h))
        simp only [h, hbq]
        simp only [advance_ok st hcur]
        exact ⟨Node.primary (.vBool b),
          { st with current := st.current + 1 }, rfl, hg01⟩
      · simp only [h]
        simp only [advance_ok st hcur]
        exact ⟨Node.primary .vNull,
          { st with current := st.current + 1 }, rfl, hg01⟩

end ParserV2

namespace ParserV1

theorem peek_ok1 (st : PState) (h : st.current < st.tokens.length) :
    peek st = .ok (st.tokens.getD st.current dTok) := by
  rw [peek, if_pos h]

theorem advance_ok1 (st : PState) (h : st.current < st.tokens.length) :
    advance st = .ok (st.tokens.getD st.current dTok,
      { st with current := st.current + 1 }) := by
  rw [advance, peek_ok1 st h]

theorem pmatch_eval1 (st : PState) (targets : List TokenKind)
    (h : st.current < st.tokens.length) :
    pmatch st targets
      = .ok (decide ((st.tokens.getD st.current dTok).kind ∈ targets)) := by
  rw [pmatch, peek_ok1 st h]

/-- A token usable strictly before the final EOF of a paren-free slice for
the ast/parser.go snapshot: not a parenthesis, not EOF, and with a lexeme
that its kind's literal conversion accepts (`Integer` via Atoi, `Float`
via ParseFloat, booleans via ParseBool). -/
def MidOK (t : Token) : Prop :=
  t.kind ≠ TokenKind.LParen ∧ t.kind ≠ TokenKind.RParen ∧
  t.kind ≠ TokenKind.EOF ∧
  (t.kind = TokenKind.Integer → (goAtoi t.lexeme).isSome = true) ∧
  (t.kind = TokenKind.Float → (goParseFloatQ t.lexeme).isSome = true) ∧
  ((t.kind = TokenKind.True ∨ t.kind = TokenKind.False) →
    (goParseBool t.lexeme).isSome = true)

instance midOKDec1 (t : Token) : Decidable (MidOK t) := by
  unfold MidOK
  infer_instance

/-- Parse-state invariant for ast/parser.go: cursor strictly inside the
slice, all tokens from the cursor up to (excluding) the last `MidOK`, and
the last token of kind EOF. -/
def INV (st : PState) : Prop :=
  st.current < st.tokens.length ∧
  (∀ i, st.current ≤ i → i + 1 < st.tokens.length →
    MidOK (st.tokens.getD i dTok)) ∧
  (st.tokens.getD (st.tokens.length - 1) dTok).kind = TokenKind.EOF

/-- Guarantee of a successful paren-free ast/parser.go step: tokens
untouched, cursor monotone and still strictly inside the slice. -/
def PGood (st st' : PState) : Prop :=
  st'.tokens = st.tokens ∧ st.current ≤ st'.current ∧
  st'.current < st.tokens.length

theorem PGood_refl1 (st : PState) (h : st.current < st.tokens.length) :
    PGood st st :=
  ⟨rfl, Nat.le_refl _, h⟩

theorem PGood_trans1 {st1 st2 st3 : PState} (h12 : PGood st1 st2)
    (h23 : PGood st2 st3) : PGood st1 st3 := by
  obtain ⟨ht12, hc12, hl12⟩ := h12
  obtain ⟨ht23, hc23, hl23⟩ := h23
  exact ⟨by rw [ht23, ht12], by omega, by rw [ht12] at hl23; exact hl23⟩

theorem INV_of_PGood1 {st st' : PState} (h : INV st) (hg : PGood st st') :
    INV st' := by
  obtain ⟨h1, h2, h3⟩ := h
  obtain ⟨ht, hc, hl⟩ := hg
  refine ⟨by rw [ht]; exact hl, ?_, ?_⟩
  · intro i hi1 hi2
    rw [ht] at hi2 ⊢
    exact h2 i (by omega) hi2
  · rw [ht]
    exact h3

/-- Advancing over a non-EOF token keeps the ast/parser.go invariant. -/
theorem INV_advance1 (st : PState) (h : INV st)
    (hk : (st.tokens.getD st.current dTok).kind ≠ TokenKind.EOF) :
    INV { st with current := st.current + 1 } ∧
    st.current + 1 < st.tokens.length := by
  obtain ⟨h1, h2, h3⟩ := h
  have hne : st.current ≠ st.tokens.length - 1 := by
    intro hc
    rw [hc] at hk
    exact hk h3
  have hlt : st.current + 1 < st.tokens.length := by omega
  refine ⟨⟨hlt, ?_, h3⟩, hlt⟩
  intro i hi1 hi2
  have hi1a : st.current + 1 ≤ i := hi1
  have hi2a : i + 1 < st.tokens.length := hi2
  exact h2 i (by omega) hi2a

/-- The token under the cursor of an invariant state is EOF or `MidOK`. -/
theorem INV_current_cases1 (st : PState) (h : INV st) :
    (st.tokens.getD st.current dTok).kind = TokenKind.EOF ∨
    MidOK (st.tokens.getD st.current dTok) := by
  obtain ⟨h1, h2, h3⟩ := h
  by_cases hc : st.current + 1 < st.tokens.length
  · exact Or.inr (h2 st.current (Nat.le_refl _) hc)
  · left
    have hcl : st.current = st.tokens.length - 1 := by omega
    rw [hcl]
    exact h3

/-- Fuel offsets per ast/parser.go rank. -/
def rankBound : Rank → Nat
  | .factor => 4
  | .factorLoop _ => 3
  | .unary => 3
  | .primary => 2
  | .literal => 1

theorem rankBound_pos1 (r : Rank) : 1 ≤ rankBound r := by
  cases r <;> simp [rankBound]

/-- On an invariant (paren-free, EOF-terminated, well-lexed) state, every
ast/parser.go parse function returns successfully — no index panic, no
group panic, no literal-conversion panic, and the fuel bound suffices —
and the resulting state only advances the cursor within bounds. -/
theorem parseStep_spec1 :
    ∀ (fuel : Nat) (r : Rank) (st : PState),
      INV st →
      (r = Rank.literal →
        (st.tokens.getD st.current dTok).kind ∈
          [TokenKind.String, TokenKind.Integer, TokenKind.Float,
           TokenKind.True, TokenKind.False, TokenKind.Null]) →
      6 * (st.tokens.length - st.current) + rankBound r ≤ fuel →
      ∃ n st', parseStep r fuel st = .ok (n, st') ∧ PGood st st' := by
  intro fuel
  induction fuel with
  | zero =>
    intro r st _ _ hb
    have := rankBound_pos1 r
    omega
  | succ f ih =>
    intro r st hINV hlit hb
    have hcur : st.current < st.tokens.length := hINV.1
    cases r with
    | factor =>
      rw [parseStep]
      obtain ⟨n1, st1, heq1, hg1⟩ := ih .unary st hINV
        (fun h => Rank.noConfusion h)
        (by
          show 6 * (st.tokens.length - st.current) + 3 ≤ f
          have hb2 : 6 * (st.tokens.length - st.current) + 4 ≤ f + 1 := hb
          omega)
      simp only [heq1]
      obtain ⟨ht1, hc1, hl1⟩ := hg1
      have hINV1 : INV st1 := INV_of_PGood1 hINV ⟨ht1, hc1, hl1⟩
      obtain ⟨n2, st2, heq2, hg2⟩ := ih (.factorLoop n1) st1 hINV1
        (fun h => Rank.noConfusion h)
        (by
          show 6 * (st1.tokens.length - st1.current) + 3 ≤ f
          have hb2 : 6 * (st.tokens.length - st.current) + 4 ≤ f + 1 := hb
          have hlen : st1.tokens.length = st.tokens.length := by rw [ht1]
          omega)
      exact ⟨n2, st2, heq2, PGood_trans1 ⟨ht1, hc1, hl1⟩ hg2⟩
    | factorLoop left =>
      rw [parseStep]
      have hne : ¬ (isEnd st = true) := by
        simp [isEnd]
        omega
      rw [if_neg hne]
      rw [pmatch_eval1 st [TokenKind.Star, TokenKind.Slash] hcur]
      by_cases hmem : (st.tokens.getD st.current dTok).kind
          ∈ [TokenKind.Star, TokenKind.Slash]
      · simp only [decide_eq_true hmem]
        simp only [peek_ok1 st hcur, advance_ok1 st hcur]
        have hkne : (st.tokens.getD st.current dTok).kind ≠ TokenKind.EOF := by
          simp only [List.mem_cons, List.not_mem_nil, or_false] at hmem
          rcases hmem with h | h <;> (rw [h]; decide)
        obtain ⟨hINV1, hlt1⟩ := INV_advance1 st hINV hkne
        have hg01 : PGood st { st with current := st.current + 1 } :=
          ⟨rfl, Nat.le_succ _, hlt1⟩
        obtain ⟨right, st2, heq2, hg2⟩ :=
          ih .unary { st with current := st.current + 1 } hINV1
            (fun h => Rank.noConfusion h)
            (by
              show 6 * (st.tokens.length - (st.current + 1)) + 3 ≤ f
              have hb2 : 6 * (st.tokens.length - st.current) + 3 ≤ f + 1 := hb
              omega)
        simp only [heq2]
        obtain ⟨ht2, hc2, hl2⟩ := hg2
        have hINV2 : INV st2 := INV_of_PGood1 hINV1 ⟨ht2, hc2, hl2⟩
        have hg02 : PGood st st2 := PGood_trans1 hg01 ⟨ht2, hc2, hl2⟩
        obtain ⟨n3, st3, heq3, hg3⟩ :=
          ih (.factorLoop (Node.binary left (st.tokens.getD st.current dTok)
              right)) st2 hINV2
            (fun h => Rank.noConfusion h)
            (by
              show 6 * (st2.tokens.length - st2.current) + 3 ≤ f
              have hb2 : 6 * (st.tokens.length - st.current) + 3 ≤ f + 1 := hb
              have hlen : st2.tokens.length = st.tokens.length := by
                rw [hg02.1]
              have hcc : st.current + 1 ≤ st2.current := hc2
              omega)
        exact ⟨n3, st3, heq3, PGood_trans1 hg02 hg3⟩
      · simp only [decide_eq_false hmem]
        exact ⟨left, st, rfl, PGood_refl1 st hcur⟩
    | unary =>
      rw [parseStep]
      rw [pmatch_eval1 st [TokenKind.Minus, TokenKind.Bang] hcur]
      by_cases hmem : (st.tokens.getD st.current dTok).kind
          ∈ [TokenKind.Minus, TokenKind.Bang]
      · simp only [decide_eq_true hmem]
        simp only [peek_ok1 st hcur, advance_ok1 st hcur]
        have hkne : (st.tokens.getD st.current dTok).kind ≠ TokenKind.EOF := by
          simp only [List.mem_cons, List.not_mem_nil, or_false] at hmem
          rcases hmem with h | h <;> (rw [h]; decide)
        obtain ⟨hINV1, hlt1⟩ := INV_advance1 st hINV hkne
        have hg01 : PGood st { st with current := st.current + 1 } :=
          ⟨rfl, Nat.le_succ _, hlt1⟩
        obtain ⟨node, st2, heq2, hg2⟩ :=
          ih .unary { st with current := st.current + 1 } hINV1
            (fun h => Rank.noConfusion h)
            (by
              show 6 * (st.tokens.length - (st.current + 1)) + 3 ≤ f
              have hb2 : 6 * (st.tokens.length - st.current) + 3 ≤ f + 1 := hb
              omega)
        simp only [heq2]
        exact ⟨Node.unary (st.tokens.getD st.current dTok) node, st2, rfl,
          PGood_trans1 hg01 hg2⟩
      · simp only [decide_eq_false hmem]
        exact ih .primary st hINV (fun h => Rank.noConfusion h)
          (by
            show 6 * (st.tokens.length - st.current) + 2 ≤ f
            have hb2 : 6 * (st.tokens.length - st.current) + 3 ≤ f + 1 := hb
            omega)
    | primary =>
      rw [parseStep]
      rw [pmatch_eval1 st [TokenKind.LParen] hcur]
      have hnotlp : ¬ ((st.tokens.getD st.current dTok).kind
          ∈ [TokenKind.LParen]) := by
        intro hm
        have hk := List.mem_singleton.mp hm
        rcases INV_current_cases1 st hINV with he | hmid
        · rw [hk] at he
          exact TokenKind.noConfusion he
        · exact hmid.1 hk
      simp only [decide_eq_false hnotlp]
      rw [pmatch_eval1 st [TokenKind.String, TokenKind.Integer,
        TokenKind.Float, TokenKind.True, TokenKind.False, TokenKind.Null]
        hcur]
      by_cases hlitm : (st.tokens.getD st.current dTok).kind
          ∈ [TokenKind.String, TokenKind.Integer, TokenKind.Float,
             TokenKind.True, TokenKind.False, TokenKind.Null]
      · simp only [decide_eq_true hlitm]
        exact ih .literal st hINV (fun _ => hlitm)
          (by
            show 6 * (st.tokens.length - st.current) + 1 ≤ f
            have hb2 : 6 * (st.tokens.length - st.current) + 2 ≤ f + 1 := hb
            omega)
      · simp only [decide_eq_false hlitm]
        exact ⟨Node.nilNode, st, rfl, PGood_refl1 st hcur⟩
    | literal =>
      have hkinds := hlit rfl
      rw [parseStep]
      simp only [peek_ok1 st hcur]
      have hkne : (st.tokens.getD st.current dTok).kind ≠ TokenKind.EOF := by
        simp only [List.mem_cons, List.not_mem_nil, or_false] at hkinds
        rcases hkinds with h | h | h | h | h | h <;> (rw [h]; decide)
      obtain ⟨hINV1, hlt1⟩ := INV_advance1 st hINV hkne
      have hg01 : PGood st { st with current := st.current + 1 } :=
        ⟨rfl, Nat.le_succ _, hlt1⟩
      have hmid : MidOK (st.tokens.getD st.current dTok) := by
        rcases INV_current_cases1 st hINV with he | hmid
        · exact absurd he hkne
        · exact hmid
      simp only [List.mem_cons, List.not_mem_nil, or_false] at hkinds
      rcases hkinds with h | h | h | h | h | h
      · simp only [h]
        simp only [advance_ok1 st hcur]
        exact ⟨Node.primary (.vStr (st.tokens.getD st.current dTok).lexeme),
          { st with current := st.current + 1 }, rfl, hg01⟩
      · obtain ⟨n, hn⟩ := Option.isSome_iff_exists.mp (hmid.2.2.2.1 h)
        simp only [h, hn]
        simp only [advance_ok1 st hcur]
        exact ⟨Node.primary (.vInt n),
          { st with current := st.current + 1 }, rfl, hg01⟩
      · obtain ⟨q, hq⟩ := Option.isSome_iff_exists.mp (hmid.2.2.2.2.1 h)
        simp only [h, hq]
        simp only [advance_ok1 st hcur]
        exact ⟨Node.primary (.vFloat q),
          { st with current := st.current + 1 }, rfl, hg01⟩
      · obtain ⟨b, hbq⟩ := Option.isSome_iff_exists.mp
          (hmid.2.2.2.2.2 (Or.inl h))
        simp only [h, hbq]
        simp only [advance_ok1 st hcur]
        exact ⟨Node.primary (.vBool b),
          { st with current := st.current + 1 }, rfl, hg01⟩
      · obtain ⟨b, hbq⟩ := Option.isSome_iff_exists.mp
          (hmid.2.2.2.2.2 (Or.inr h))
        simp only [h, hbq]
        simp only [advance_ok1 st hcur]
        exact ⟨Node.primary (.vBool b),
          { st with current := st.current + 1 }, rfl, hg01⟩
      · simp only [h]
        simp only [advance_ok1 st hcur]
        exact ⟨Node.primary .vNull,
          { st with current := st.current + 1 }, rfl, hg01⟩

end ParserV1

namespace ParserV1

/-- A leading `(` followed by a parenthesis-free well-lexed tail ending in
EOF makes ast/parser.go `Parse` panic "unterminated group expression": the
inner top-level parse succeeds (by `parseStep_spec1`), the `)` check then
sees EOF or a mid token, neither of which is `RParen`. -/
theorem parse_unterminated_group_panic (lp : Token) (rest : List Token)
    (hlp : lp.kind = TokenKind.LParen) (hne : rest ≠ [])
    (heof : ((lp :: rest).getD ((lp :: rest).length - 1) dTok).kind
      = TokenKind.EOF)
    (hmid : ∀ i, 1 ≤ i → i + 1 < (lp :: rest).length →
      MidOK ((lp :: rest).getD i dTok)) :
    Parse (lp :: rest)
      = .error (PErr.goPanic "unterminated group expression") := by
  have hrlen : 0 < rest.length := List.length_pos.mpr hne
  have h0cur : (PState.mk (lp :: rest) 0).current
      < (PState.mk (lp :: rest) 0).tokens.length := by
    show 0 < (lp :: rest).length
    simp
  have hINV1 : INV (PState.mk (lp :: rest) 1) := by
    refine ⟨?_, ?_, ?_⟩
    · show 1 < (lp :: rest).length
      simp only [List.length_cons]
      omega
    · intro i h1 h2
      exact hmid i h1 h2
    · exact heof
  obtain ⟨value, st2, hinner, hg2⟩ := parseStep_spec1
    (6 * (lp :: rest).length + 5) .factor (PState.mk (lp :: rest) 1) hINV1
    (fun h => Rank.noConfusion h)
    (by
      show 6 * ((lp :: rest).length - 1) + 4 ≤ 6 * (lp :: rest).length + 5
      simp only [List.length_cons]
      omega)
  have hINV2 : INV st2 := INV_of_PGood1 hINV1 hg2
  have hcur2 : st2.current < st2.tokens.length := hINV2.1
  have hnrp : ¬ ((st2.tokens.getD st2.current dTok).kind
      ∈ [TokenKind.RParen]) := by
    intro hmem
    have hk := List.mem_singleton.mp hmem
    rcases INV_current_cases1 st2 hINV2 with he | hm
    · rw [hk] at he
      exact TokenKind.noConfusion he
    · exact hm.2.1 hk
  have hpmRP : pmatch st2 [TokenKind.RParen] = .ok false := by
    rw [pmatch_eval1 st2 _ hcur2, decide_eq_false hnrp]
  have hpmLP : pmatch (PState.mk (lp :: rest) 0) [TokenKind.LParen]
      = .ok true := by
    rw [pmatch_eval1 _ _ h0cur]
    have hk : ((PState.mk (lp :: rest) 0).tokens.getD
        (PState.mk (lp :: rest) 0).current dTok).kind
        = TokenKind.LParen := hlp
    rw [hk]
    rfl
  have hadv0 : advance (PState.mk (lp :: rest) 0)
      = .ok (lp, PState.mk (lp :: rest) 1) := by
    rw [advance_ok1 _ h0cur]
    rfl
  have hprim : parseStep .primary (6 * (lp :: rest).length + 6)
      (PState.mk (lp :: rest) 0)
      = .error (PErr.goPanic "unterminated group expression") := by
    show parseStep .primary (6 * (lp :: rest).length + 5 + 1) _ = _
    rw [parseStep]
    simp only [hpmLP, hadv0, hinner, hpmRP]
  have hun : parseStep .unary (6 * (lp :: rest).length + 7)
      (PState.mk (lp :: rest) 0)
      = .error (PErr.goPanic "unterminated group expression") := by
    show parseStep .unary (6 * (lp :: rest).length + 6 + 1) _ = _
    rw [parseStep]
    have hpmMB : pmatch (PState.mk (lp :: rest) 0)
        [TokenKind.Minus, TokenKind.Bang] = .ok false := by
      rw [pmatch_eval1 _ _ h0cur]
      have hk : ((PState.mk (lp :: rest) 0).tokens.getD
          (PState.mk (lp :: rest) 0).current dTok).kind
          = TokenKind.LParen := hlp
      rw [hk]
      rfl
    simp only [hpmMB, hprim]
  rw [Parse, parseFactor]
  show parseStep .factor (6 * (lp :: rest).length + 7 + 1) _ = _
  rw [parseStep]
  simp only [hun]

end ParserV1

namespace ParserV2

/-- Running any of the part_004 operator loops from a state that either
sits exactly at the end of the slice or satisfies the invariant returns
successfully and preserves the tokens, any recorded error message, and
the end-or-invariant dichotomy. -/
theorem loop_carry (msg : String) (T : List Token) (r : Rank) (left : Node)
    (fuel : Nat)
    (hr : r = Rank.eqLoop left ∨ r = Rank.compLoop left ∨
      r = Rank.termLoop left ∨ r = Rank.factorLoop left)
    (st : PState)
    (hm : msg ∈ st.errors) (ht : st.tokens = T)
    (hcase : st.current = T.length ∨ INV st)
    (hfuel : 6 * (st.tokens.length - st.current) + rankBound r ≤ fuel) :
    ∃ n' st', parseStep r fuel st = .ok (n', st') ∧
      msg ∈ st'.errors ∧ st'.tokens = T ∧
      (st'.current = T.length ∨ INV st') := by
  obtain ⟨c, rfl⟩ : ∃ c, fuel = c + 1 :=
    ⟨fuel - 1, by have := rankBound_pos r; omega⟩
  rcases hcase with hend | hINV
  · have hE : isEnd st = true := by
      simp only [isEnd, decide_eq_true_eq]
      rw [ht, hend]
    rcases hr with h | h | h | h <;>
      (subst h
       rw [parseStep, if_pos hE]
       exact ⟨left, st, rfl, hm, ht, Or.inl hend⟩)
  · have hlit : r = Rank.literal →
        (st.tokens.getD st.current dTok).kind ∈
          [TokenKind.String, TokenKind.Number, TokenKind.True,
           TokenKind.False, TokenKind.Null] := by
      intro hl
      rcases hr with h | h | h | h <;> (rw [h] at hl; exact Rank.noConfusion hl)
    obtain ⟨n', st', heq, hg⟩ := parseStep_spec (c + 1) r st hINV hlit hfuel
    obtain ⟨htt, hcc, hll, es, hes⟩ := hg
    refine ⟨n', st', heq, ?_, ?_,
      Or.inr (INV_of_PGood hINV ⟨htt, hcc, hll, es, hes⟩)⟩
    · rw [hes]
      exact List.mem_append_left _ hm
    · rw [htt, ht]

end ParserV2

namespace ParserV2

/-- A leading `(` followed by a parenthesis-free well-lexed tail ending in
EOF does NOT make the part_004 parser fail: `parsePrimary` records
"Unterminated group expression" in the error list, advances past the `)`
position unconditionally, and returns a node; the enclosing operator loops
then stop (at end or at EOF/mid tokens), so `Parse` succeeds with the
message recorded. -/
theorem parse_unterminated_group_recovers (lp : Token) (rest : List Token)
    (hlp : lp.kind = TokenKind.LParen) (hne : rest ≠ [])
    (heof : ((lp :: rest).getD ((lp :: rest).length - 1) dTok).kind
      = TokenKind.EOF)
    (hmid : ∀ i, 1 ≤ i → i + 1 < (lp :: rest).length →
      MidOK ((lp :: rest).getD i dTok)) :
    ∃ n st, Parse (lp :: rest) = .ok (n, st) ∧
      "Unterminated group expression" ∈ st.errors := by
  have hrlen : 0 < rest.length := List.length_pos.mpr hne
  have h0cur : (PState.mk (lp :: rest) [] 0).current
      < (PState.mk (lp :: rest) [] 0).tokens.length := by
    show 0 < (lp :: rest).length
    simp
  have hINV1 : INV (PState.mk (lp :: rest) [] 1) := by
    refine ⟨?_, ?_, ?_⟩
    · show 1 < (lp :: rest).length
      simp only [List.length_cons]
      omega
    · intro i h1 h2
      exact hmid i h1 h2
    · exact heof
  obtain ⟨value, st2, hinner, hg2⟩ := parseStep_spec
    (6 * (lp :: rest).length + 2) .eq (PState.mk (lp :: rest) [] 1) hINV1
    (fun h => Rank.noConfusion h)
    (by
      show 6 * ((lp :: rest).length - 1) + 7 ≤ 6 * (lp :: rest).length + 2
      simp only [List.length_cons]
      omega)
  have hINV2 : INV st2 := INV_of_PGood hINV1 hg2
  have hcur2 : st2.current < st2.tokens.length := hINV2.1
  have htk2 : st2.tokens = lp :: rest := hg2.1
  have hnrp : ¬ ((st2.tokens.getD st2.current dTok).kind
      ∈ [TokenKind.RParen]) := by
    intro hmem
    have hk := List.mem_singleton.mp hmem
    rcases INV_current_cases st2 hINV2 with he | hm
    · rw [hk] at he
      exact TokenKind.noConfusion he
    · exact hm.2.1 hk
  have hpmRP : pmatch st2 [TokenKind.RParen] = .ok false := by
    rw [pmatch_eval st2 _ hcur2, decide_eq_false hnrp]
  have hpmLP : pmatch (PState.mk (lp :: rest) [] 0) [TokenKind.LParen]
      = .ok true := by
    rw [pmatch_eval _ _ h0cur]
    have hk : ((PState.mk (lp :: rest) [] 0).tokens.getD
        (PState.mk (lp :: rest) [] 0).current dTok).kind
        = TokenKind.LParen := hlp
    rw [hk]
    rfl
  have hadv0 : advance (PState.mk (lp :: rest) [] 0)
      = .ok (lp, PState.mk (lp :: rest) [] 1) := by
    rw [advance_ok _ h0cur]
    rfl
  have hcur2e : (registerError st2 "Unterminated group expression").current
      < (registerError st2 "Unterminated group expression").tokens.length :=
    hcur2
  have hadv2 : advance (registerError st2 "Unterminated group expression")
      = .ok ((registerError st2 "Unterminated group expression").tokens.getD
          (registerError st2 "Unterminated group expression").current dTok,
        { registerError st2 "Unterminated group expression" with
          current := (registerError st2
            "Unterminated group expression").current + 1 }) :=
    advance_ok _ hcur2e
  have hPrim : ∃ n3 st3,
      parseStep .primary (6 * (lp :: rest).length + 3)
        (PState.mk (lp :: rest) [] 0) = .ok (n3, st3) ∧
      "Unterminated group expression" ∈ st3.errors ∧
      st3.tokens = lp :: rest ∧
      (st3.current = (lp :: rest).length ∨ INV st3) := by
    show ∃ n3 st3,
      parseStep .primary (6 * (lp :: rest).length + 2 + 1)
        (PState.mk (lp :: rest) [] 0) = .ok (n3, st3) ∧ _
    rw [parseStep]
    simp only [hpmLP, hadv0, hinner, hpmRP, Bool.false_eq_true, if_false,
      hadv2]
    refine ⟨Node.primary (valueOfNode value),
      { registerError st2 "Unterminated group expression" with
        current := (registerError st2
          "Unterminated group expression").current + 1 }, rfl, ?_, ?_, ?_⟩
    · show "Unterminated group expression"
        ∈ st2.errors ++ ["Unterminated group expression"]
      exact List.mem_append_right _ (List.mem_singleton.mpr rfl)
    · show st2.tokens = lp :: rest
      exact htk2
    · by_cases hc : st2.current + 1 < st2.tokens.length
      · right
        have hmok : MidOK (st2.tokens.getD st2.current dTok) :=
          hINV2.2.1 st2.current (Nat.le_refl _) hc
        have hk : ((registerError st2
            "Unterminated group expression").tokens.getD
            (registerError st2 "Unterminated group expression").current
            dTok).kind ≠ TokenKind.EOF := hmok.2.2.1
        have hINV2e : INV (registerError st2 "Unterminated group expression")
          := hINV2
        exact (INV_advance _ hINV2e hk).1
      · left
        show st2.current + 1 = (lp :: rest).length
        have hlen2 : st2.tokens.length = (lp :: rest).length := by
          rw [htk2]
        omega
  obtain ⟨n3, st3, hP3, hm3, ht3, hc3⟩ := hPrim
  have hUn : parseStep .unary (6 * (lp :: rest).length + 4)
      (PState.mk (lp :: rest) [] 0)
      = parseStep .primary (6 * (lp :: rest).length + 3)
        (PState.mk (lp :: rest) [] 0) := by
    show parseStep .unary (6 * (lp :: rest).length + 3 + 1) _ = _
    rw [parseStep]
    have hpmMB : pmatch (PState.mk (lp :: rest) [] 0)
        [TokenKind.Minus, TokenKind.Bang] = .ok false := by
      rw [pmatch_eval _ _ h0cur]
      have hk : ((PState.mk (lp :: rest) [] 0).tokens.getD
          (PState.mk (lp :: rest) [] 0).current dTok).kind
          = TokenKind.LParen := hlp
      rw [hk]
      rfl
    simp only [hpmMB]
  have hFac : ∃ n st', parseStep .factor (6 * (lp :: rest).length + 5)
      (PState.mk (lp :: rest) [] 0) = .ok (n, st') ∧
      "Unterminated group expression" ∈ st'.errors ∧
      st'.tokens = lp :: rest ∧
      (st'.current = (lp :: rest).length ∨ INV st') := by
    show ∃ n st', parseStep .factor (6 * (lp :: rest).length + 4 + 1)
      (PState.mk (lp :: rest) [] 0) = .ok (n, st') ∧ _
    rw [parseStep]
    simp only [hUn, hP3]
    refine loop_carry _ _ _ n3 _ (Or.inr (Or.inr (Or.inr rfl))) st3 hm3 ht3
      hc3 ?_
    have hlen3 : st3.tokens.length = (lp :: rest).length := by rw [ht3]
    show 6 * (st3.tokens.length - st3.current) + 3
      ≤ 6 * (lp :: rest).length + 4
    have hsub : st3.tokens.length - st3.current ≤ st3.tokens.length :=
      Nat.sub_le _ _
    omega
  obtain ⟨n4, st4, hF4, hm4, ht4, hc4⟩ := hFac
  have hTerm : ∃ n st', parseStep .term (6 * (lp :: rest).length + 6)
      (PState.mk (lp :: rest) [] 0) = .ok (n, st') ∧
      "Unterminated group expression" ∈ st'.errors ∧
      st'.tokens = lp :: rest ∧
      (st'.current = (lp :: rest).length ∨ INV st') := by
    show ∃ n st', parseStep .term (6 * (lp :: rest).length + 5 + 1)
      (PState.mk (lp :: rest) [] 0) = .ok (n, st') ∧ _
    rw [parseStep]
    simp only [hF4]
    refine loop_carry _ _ _ n4 _ (Or.inr (Or.inr (Or.inl rfl))) st4 hm4 ht4
      hc4 ?_
    have hlen4 : st4.tokens.length = (lp :: rest).length := by rw [ht4]
    show 6 * (st4.tokens.length - st4.current) + 4
      ≤ 6 * (lp :: rest).length + 5
    have hsub : st4.tokens.length - st4.current ≤ st4.tokens.length :=
      Nat.sub_le _ _
    omega
  obtain ⟨n5, st5, hF5, hm5, ht5, hc5⟩ := hTerm
  have hComp : ∃ n st', parseStep .comp (6 * (lp :: rest).length + 7)
      (PState.mk (lp :: rest) [] 0) = .ok (n, st') ∧
      "Unterminated group expression" ∈ st'.errors ∧
      st'.tokens = lp :: rest ∧
      (st'.current = (lp :: rest).length ∨ INV st') := by
    show ∃ n st', parseStep .comp (6 * (lp :: rest).length + 6 + 1)
      (PState.mk (lp :: rest) [] 0) = .ok (n, st') ∧ _
    rw [parseStep]
    simp only [hF5]
    refine loop_carry _ _ _ n5 _ (Or.inr (Or.inl rfl)) st5 hm5 ht5 hc5 ?_
    have hlen5 : st5.tokens.length = (lp :: rest).length := by rw [ht5]
    show 6 * (st5.tokens.length - st5.current) + 5
      ≤ 6 * (lp :: rest).length + 6
    have hsub : st5.tokens.length - st5.current ≤ st5.tokens.length :=
      Nat.sub_le _ _
    omega
  obtain ⟨n6, st6, hF6, hm6, ht6, hc6⟩ := hComp
  have hEq : ∃ n st', parseStep .eq (6 * (lp :: rest).length + 8)
      (PState.mk (lp :: rest) [] 0) = .ok (n, st') ∧
      "Unterminated group expression" ∈ st'.errors ∧
      st'.tokens = lp :: rest ∧
      (st'.current = (lp :: rest).length ∨ INV st') := by
    show ∃ n st', parseStep .eq (6 * (lp :: rest).length + 7 + 1)
      (PState.mk (lp :: rest) [] 0) = .ok (n, st') ∧ _
    rw [parseStep]
    simp only [hF6]
    refine loop_carry _ _ _ n6 _ (Or.inl rfl) st6 hm6 ht6 hc6 ?_
    have hlen6 : st6.tokens.length = (lp :: rest).length := by rw [ht6]
    show 6 * (st6.tokens.length - st6.current) + 6
      ≤ 6 * (lp :: rest).length + 7
    have hsub : st6.tokens.length - st6.current ≤ st6.tokens.length :=
      Nat.sub_le _ _
    omega
  obtain ⟨n7, st7, hF7, hm7, _, _⟩ := hEq
  refine ⟨n7, st7, ?_, hm7⟩
  rw [Parse, parseEquality]
  exact hF7

end ParserV2

/-- C6: a `(` with no matching `)` is fatal only in the ast/parser.go
snapshot: for every token list headed by `(` whose tail is non-empty,
parenthesis-free, well-lexed for both parsers, and EOF-terminated,
ast/parser.go's `Parse` aborts with the Go panic "unterminated group
expression", while the part_004 parser returns a node successfully and
merely records "Unterminated group expression" in its error list. -/
theorem unmatched_group_panics_v1_recorded_v2 (lp : Token)
    (rest : List Token)
    (hlp : lp.kind = TokenKind.LParen) (hne : rest ≠ [])
    (heof : ((lp :: rest).getD ((lp :: rest).length - 1)
      ParserV1.dTok).kind = TokenKind.EOF)
    (hmid : ∀ i, 1 ≤ i → i + 1 < (lp :: rest).length →
      ParserV1.MidOK ((lp :: rest).getD i ParserV1.dTok) ∧
      ParserV2.MidOK ((lp :: rest).getD i ParserV2.dTok)) :
    ParserV1.Parse (lp :: rest)
      = .error (PErr.goPanic "unterminated group expression") ∧
    ∃ n st, ParserV2.Parse (lp :: rest) = .ok (n, st) ∧
      "Unterminated group expression" ∈ st.errors := by
  have heof2 : ((lp :: rest).getD ((lp :: rest).length - 1)
      ParserV2.dTok).kind = TokenKind.EOF := heof
  exact ⟨ParserV1.parse_unterminated_group_panic lp rest hlp hne heof
      (fun i h1 h2 => (hmid i h1 h2).1),
    ParserV2.parse_unterminated_group_recovers lp rest hlp hne heof2
      (fun i h1 h2 => (hmid i h1 h2).2)⟩

/-- Concrete refutation of the claim's universal "fatal, no usable AST"
reading: on `( 1 <EOF>` the part_004 parser returns a node and only
records the group error. -/
theorem unmatched_group_part_004_returns_ast :
    ∃ n st, ParserV2.Parse [NewToken TokenKind.LParen "(" 1,
        NewToken TokenKind.Number "1" 1, NewToken TokenKind.EOF "" 1]
      = .ok (n, st) ∧ st.errors = ["Unterminated group expression"] :=
  ⟨_, _, rfl, rfl⟩

theorem unmatched_group_panics_v1_recorded_v2_witness :
    (NewToken TokenKind.LParen "(" 1).kind = TokenKind.LParen ∧
    ParserV1.Parse [NewToken TokenKind.LParen "(" 1,
        NewToken TokenKind.Integer "1" 1, NewToken TokenKind.EOF "" 1]
      = .error (PErr.goPanic "unterminated group expression") ∧
    ∃ n st, ParserV2.Parse [NewToken TokenKind.LParen "(" 1,
        NewToken TokenKind.Integer "1" 1, NewToken TokenKind.EOF "" 1]
      = .ok (n, st) ∧ "Unterminated group expression" ∈ st.errors := by
  have h := unmatched_group_panics_v1_recorded_v2
    (NewToken TokenKind.LParen "(" 1)
    [NewToken TokenKind.Integer "1" 1, NewToken TokenKind.EOF "" 1]
    (by decide) (by decide) (by decide)
    (fun i h1 h2 => by
      have h2a : i + 1 < 3 := h2
      have h1a : 1 ≤ i := h1
      have hi : i = 1 := by omega
      subst hi
      exact ⟨by decide, by decide⟩)
  exact ⟨rfl, h.1, h.2⟩

/-- C10: the in-bounds/totality guarantee holds for the part_004 parser
on parenthesis-free inputs: for every non-empty, well-lexed token list
whose mid tokens are `MidOK` and whose last token is EOF, `Parse` returns
`.ok` — every `peek`/`advance` access stays within the slice.  (It does
NOT hold for nested unmatched `(`, see the counterexample.) -/
theorem parse_v2_paren_free_total (tokens : List Token)
    (hne : tokens ≠ [])
    (heof : ((tokens.getD (tokens.length - 1) ParserV2.dTok)).kind
      = TokenKind.EOF)
    (hmid : ∀ i, i + 1 < tokens.length →
      ParserV2.MidOK (tokens.getD i ParserV2.dTok)) :
    ∃ n st, ParserV2.Parse tokens = .ok (n, st) := by
  have h0 : 0 < tokens.length := List.length_pos.mpr hne
  have hINV : ParserV2.INV (ParserV2.PState.mk tokens [] 0) :=
    ⟨h0, fun i _ h2 => hmid i h2, heof⟩
  obtain ⟨n, st', heq, _⟩ := ParserV2.parseStep_spec
    (6 * tokens.length + 8) .eq (ParserV2.PState.mk tokens [] 0) hINV
    (fun h => ParserV2.Rank.noConfusion h)
    (by
      show 6 * (tokens.length - 0) + 7 ≤ 6 * tokens.length + 8
      omega)
  refine ⟨n, st', ?_⟩
  rw [ParserV2.Parse, ParserV2.parseEquality]
  exact heq

/-- Refutation of the claim's "including sequences with nested unmatched
left parentheses": on `( ( <EOF>` the part_004 parser's unconditional
`advance` after the missing `)` steps past the slice and the next `peek`
indexes out of range (a Go runtime panic). -/
theorem parse_v2_nested_lparen_index_panic :
    ParserV2.Parse [NewToken TokenKind.LParen "(" 1,
        NewToken TokenKind.LParen "(" 1, NewToken TokenKind.EOF "" 1]
      = .error PErr.indexOutOfRange := rfl

theorem parse_v2_paren_free_total_witness :
    ∃ n st, ParserV2.Parse [NewToken TokenKind.Number "1" 1,
        NewToken TokenKind.EOF "" 1] = .ok (n, st) :=
  parse_v2_paren_free_total
    [NewToken TokenKind.Number "1" 1, NewToken TokenKind.EOF "" 1]
    (by decide) (by decide)
    (fun i h2 => by
      have h2a : i + 1 < 2 := h2
      have hi : i = 0 := by omega
      subst hi
      decide)
